import Mathlib

/-!
# Verification of the lion-core `Pile` container

Shallow embedding of `src/lion_core/generic/pile.py` (class `Pile`) and of the
collaborators that `pile.py` uses.  `Progression`, `Element`, `SysUtil.get_id`,
`to_list_type` and `validate_order` are not part of the provided sources (only
`pile.py` is), so those are modelled from the specification's description of
the `Order` component and the keying rule; each such definition carries a
`Modelled from the spec:` doc comment.  Everything else is transcribed
statement by statement from `pile.py`.

Conventions:
* Python `dict[str, T]` is an insertion-ordered association list `Dict`.
* Python exceptions are `Except Err`; each `Err` constructor is one of the
  exception classes raised by `pile.py` (`ItemExistsError`, `ItemNotFoundError`,
  `LionTypeError`, `LionValueError`, `KeyError`, `ValueError`, `IndexError`).
* Element types are tags `Nat`; `issubclass` is a concrete subclass relation
  in which type `1` is a proper subclass of type `0` (enough to express the
  strict / non-strict distinction of `_validate_pile`).
* `dict.pop(k)` inside `_setitem`'s delete loop is modelled as total removal;
  in Python it would raise `KeyError` for an absent key, which cannot happen
  there because every deleted key is drawn from `self.order` and, in every
  state reachable from a fresh pile, `self.order` only holds keys of `pile_`.
-/

namespace LionCore

/-- Identity key: immutable unique string assigned by the external identity
authority (`SysUtil`); out of scope per the spec, so it is just a string. -/
abbrev LionId := String

/-- An element insertable into a `Pile`: it exposes its identity key (`ln_id`)
and has a runtime type, modelled as a tag `ty : Nat`.  All `Item`s satisfy the
`Observable` capability. -/
structure Item where
  ln_id : LionId
  ty : Nat
deriving DecidableEq, Repr

/-- Concrete runtime subclass relation on type tags: every type is a subclass
of itself, and type `1` is additionally a subclass of type `0` (a stand-in for
`class B(A)` used by the strict / non-strict item-type gating). -/
def issubclass (a b : Nat) : Bool := a == b || (a == 1 && b == 0)

/-- The exception kinds raised by `pile.py`. -/
inductive Err
  | itemExists
  | itemNotFound
  | lionType
  | lionValue
  | keyErr
  | valueErr
  | indexErr
deriving DecidableEq, Repr

/-! ## Python `dict[str, Item]` as an insertion-ordered association list -/

/-- Python `dict[str, T]`: an association list in insertion order. -/
abbrev Dict := List (LionId × Item)

/-- `list(d.keys())` — keys in insertion order. -/
def dictKeys (d : Dict) : List LionId := d.map Prod.fst

/-- `d[k]` / `d.get(k)` — first (only) binding of `k`. -/
def dictLookup (d : Dict) (k : LionId) : Option Item :=
  match d with
  | [] => none
  | (k', v) :: rest => if k' = k then some v else dictLookup rest k

/-- `d[k] = v` — replace in place if `k` is bound, else append (Python dicts
keep the original insertion position on overwrite). -/
def dictSet (d : Dict) (k : LionId) (v : Item) : Dict :=
  match d with
  | [] => [(k, v)]
  | (k', v') :: rest =>
      if k' = k then (k, v) :: rest else (k', v') :: dictSet rest k v

/-- `d.pop(k)`'s effect on the dict: drop the binding of `k` (total; see the
module comment about the `KeyError` case). -/
def dictPop (d : Dict) (k : LionId) : Dict :=
  match d with
  | [] => []
  | (k', v') :: rest => if k' = k then rest else (k', v') :: dictPop rest k

/-- `d.update(e)` — fold `dictSet` over `e` in order. -/
def dictUpdate (d e : Dict) : Dict :=
  e.foldl (fun acc kv => dictSet acc kv.1 kv.2) d

/-! ## The `Progression` (`Order`) component

Modelled from the spec: `Progression` is not among the provided source files;
section 4.1 of the spec describes it as an ordered duplicate-free sequence of
identity keys with index/slice get and set (splice semantics, scalar-index
assignment requires a single key), clamped positional insert, remove of the
first occurrence (NotFound-kind when absent), append that silently skips keys
already present, membership and length. -/

/-- A traversal order: a sequence of identity keys. -/
abbrev Order := List LionId

/-- Python slice `slice(start, stop)`; the spec describes slice operations as
span ("splice") operations, so only the two endpoints are modelled (step 1). -/
structure Sl where
  start : Int
  stop : Int
deriving DecidableEq, Repr

/-- Normalize a Python slice endpoint against a length: negative endpoints
count from the right end and everything is clamped into `[0, len]`. -/
def normIdx (len : Nat) (i : Int) : Nat :=
  if i < 0 then (i + len).toNat else min i.toNat len

/-- Python's negative-index adjustment for a sequence of length `len`. -/
def pyIndex (len : Nat) (i : Int) : Int := if i < 0 then i + len else i

/-- Modelled from the spec: `Progression.__getitem__` with an integer index
(negative indices count from the right; out of range is an error,
returned here as `none`). -/
def progGet (ord : Order) (i : Int) : Option LionId :=
  if pyIndex ord.length i < 0 then none
  else ord.get? (pyIndex ord.length i).toNat

/-- Modelled from the spec: `Progression.__getitem__` with a slice — the
addressed span, never failing. -/
def progGetSlice (ord : Order) (s : Sl) : Order :=
  let a := normIdx ord.length s.start
  let b := normIdx ord.length s.stop
  (ord.drop a).take (b - a)

/-- Modelled from the spec: slice assignment with splice semantics — the
addressed span is replaced by `keys` and the sequence may change length. -/
def progSetSlice (ord : Order) (s : Sl) (keys : List LionId) : Order :=
  let a := normIdx ord.length s.start
  let b := normIdx ord.length s.stop
  ord.take a ++ keys ++ ord.drop (max a b)

/-- Modelled from the spec: scalar-index assignment — requires exactly one
key and an in-range index, and replaces the addressed position. -/
def progSetIndex (ord : Order) (i : Int) (keys : List LionId) : Option Order :=
  match keys with
  | [k] =>
      if pyIndex ord.length i < 0 ∨ (ord.length : Int) ≤ pyIndex ord.length i
      then none
      else some (ord.take (pyIndex ord.length i).toNat ++ [k] ++
        ord.drop ((pyIndex ord.length i).toNat + 1))
  | _ => none

/-- Modelled from the spec: `Progression.remove` — removes the first
occurrence, NotFound-kind error (here `none`) when absent. -/
def progRemove (ord : Order) (k : LionId) : Option Order :=
  if k ∈ ord then some (ord.erase k) else none

/-- One step of `Progression.append`: extend at the tail unless the key is
already present. -/
def progAppendOne (ord : Order) (k : LionId) : Order :=
  if k ∈ ord then ord else ord ++ [k]

/-- Modelled from the spec: `Progression.append` / `+=` — extends at the
tail, silently skipping keys already present (idempotent union). -/
def progAppend (ord : Order) (ks : List LionId) : Order :=
  ks.foldl progAppendOne ord

/-- Modelled from the spec: `Progression.insert(index, keys)` — inserts the
keys before `index` (clamped, as Python `list.insert` never range-fails),
shifting subsequent keys right; duplicate keys are a duplicate-kind error. -/
def progInsert (ord : Order) (i : Int) (ks : List LionId) : Option Order :=
  if ks.any (fun k => k ∈ ord) then none
  else
    let j := normIdx ord.length i
    some (ord.take j ++ ks ++ ord.drop j)

/-! ## The `Pile` data model (`pile.py`, class `Pile`) -/

/-- The `Pile` state: `pile_` (the key→element dict), `item_type` (optional
set of allowed type tags), `order` (the `Progression`), `strict`. -/
structure Pile where
  pile_ : Dict
  item_type : Option (List Nat)
  order : Order
  strict : Bool
deriving DecidableEq, Repr

/-- A member of a heterogeneous key collection: an identity-key string, an
identity-bearing item, an integer, or a value of some other shape (such as a
float) that bears no identity. -/
inductive KElem
  | kstr (s : String)
  | kitem (it : Item)
  | kint (n : Int)
  | kother
deriving DecidableEq, Repr

/-- The shapes a key argument of `__getitem__` / `__setitem__` / `pop` / `get`
can take: integer index, slice, identity-key string, a single item, a
(possibly heterogeneous) collection, or some other, non-conforming shape
(such as a float). -/
inductive PKey
  | idx (i : Int)
  | slc (s : Sl)
  | sid (s : String)
  | pitem (it : Item)
  | coll (l : List KElem)
  | kbad
deriving DecidableEq, Repr

/-- Modelled from the spec: `SysUtil.get_id` — resolves a collection member
to its identity key (strings are identity keys, items expose `ln_id`), and
fails with a Type-kind error on anything without an identity. -/
def get_id : KElem → Except Err LionId
  | .kstr s => .ok s
  | .kitem it => .ok it.ln_id
  | .kint _ => .error .lionType
  | .kother => .error .lionType

/-- Modelled from the spec: `to_list_type` — normalizes a key argument to a
flat collection of members; a key whose shape is not one of
{identity-key, item, collection} fails with a Type-kind error. -/
def to_list_type_key : PKey → Except Err (List KElem)
  | .sid s => .ok [.kstr s]
  | .pitem it => .ok [.kitem it]
  | .coll l => .ok l
  | .idx i => .ok [.kint i]
  | .slc _ => .error .lionType
  | .kbad => .error .lionType

/-- A Python `for` loop collecting `f` over a list, stopping at the first
raised exception. -/
def mapMErr (f : α → Except Err β) : List α → Except Err (List β)
  | [] => .ok []
  | a :: as =>
      match f a with
      | .error e => .error e
      | .ok b =>
          match mapMErr f as with
          | .error e => .error e
          | .ok bs => .ok (b :: bs)

/-- A Python `for` loop collecting `f` over a list, stopping at the first
miss (`KeyError`). -/
def mapMOpt (f : α → Option β) : List α → Option (List β)
  | [] => some []
  | a :: as =>
      match f a with
      | none => none
      | some b =>
          match mapMOpt f as with
          | none => none
          | some bs => some (b :: bs)

/-- Modelled from the spec: `validate_order` (from `generic/utils.py`) —
resolves a key argument to the list of identity keys it denotes, via
`get_id` on each member; non-conforming shapes are a Type-kind error. -/
def util_validate_order : PKey → Except Err (List LionId)
  | .sid s => .ok [s]
  | .pitem it => .ok [it.ln_id]
  | .coll l => mapMErr get_id l
  | .idx _ => .error .lionType
  | .slc _ => .error .lionType
  | .kbad => .error .lionType

/-- The per-item type gate of `Pile._validate_pile`: with `item_type` set and
`strict`, `type(i)` must be in the set; non-strict, `type(i)` must be a
subclass of some member; with `item_type` unset, any `Observable` (every
`Item` here) is accepted. -/
def checkItemType (item_type : Option (List Nat)) (strict : Bool) (it : Item) :
    Except Err Unit :=
  match item_type with
  | some ts =>
      if strict then
        if it.ty ∈ ts then .ok () else .error .lionType
      else
        if ts.any (fun t => issubclass it.ty t) then .ok () else .error .lionType
  | none => .ok ()

/-- The loop of `Pile._validate_pile`: validate each incoming element in turn
and build `result[i.ln_id] = i`; all-or-nothing (the first failure discards
the whole batch). -/
def validate_pileAux (item_type : Option (List Nat)) (strict : Bool)
    (acc : Dict) : List Item → Except Err Dict
  | [] => .ok acc
  | it :: rest =>
      match checkItemType item_type strict it with
      | .ok _ => validate_pileAux item_type strict (dictSet acc it.ln_id it) rest
      | .error e => .error e

/-- `Pile._validate_pile`: normalize the input to a flat list (already done by
the `List Item` argument type), validate every element, and return the
identity-key→element dict. -/
def validate_pile (item_type : Option (List Nat)) (strict : Bool)
    (items : List Item) : Except Err Dict :=
  validate_pileAux item_type strict [] items

/-- `Pile._validate_item_type`: all members must be `Observable` types (every
tag is, in this model), duplicates are a Value-kind error, and an empty
collection normalizes to `none` (the Python code falls through without a
`return` in that case). -/
def validate_item_type (value : Option (List Nat)) :
    Except Err (Option (List Nat)) :=
  match value with
  | none => .ok none
  | some l =>
      if l.Nodup then
        if l.length > 0 then .ok (some l) else .ok none
      else .error .lionValue

/-- `Pile._validate_order`: an absent (or empty, which Python's `if not value`
also treats as absent) explicit order defaults to the dict's key sequence;
otherwise the explicit order must be duplicate-free, of the same length as
the dict's key set, and consist of keys of the dict. -/
def pileValidateOrder (pile_ : Dict) (value : Option Order) : Except Err Order :=
  match value with
  | none => .ok (dictKeys pile_)
  | some v =>
      if v = [] then .ok (dictKeys pile_)
      else if ¬ v.Nodup then .error .lionValue
      else if v.length ≠ (dictKeys pile_).length then .error .lionValue
      else if v.any (fun k => k ∉ dictKeys pile_) then .error .lionValue
      else .ok v

/-- `Pile.__init__(items, item_type, order, strict)`: set `strict`, validate
`item_type`, validate the seed items into `pile_`, then validate `order`. -/
def pileInit (items : List Item) (item_type : Option (List Nat))
    (order : Option Order) (strict : Bool) : Except Err Pile :=
  match validate_item_type item_type with
  | .error e => .error e
  | .ok it =>
      match validate_pile it strict items with
      | .error e => .error e
      | .ok d =>
          match pileValidateOrder d order with
          | .error e => .error e
          | .ok ord =>
              .ok { pile_ := d, item_type := it, order := ord, strict := strict }

/-! ## Operations of `Pile` -/

/-- What a keyed read/removal returns: a single element, a new `Pile`, or the
caller-supplied default (`LN_UNDEFINED` handling: `dflt` is produced only when
a default was supplied). -/
inductive RVal
  | one (it : Item)
  | pile (q : Pile)
  | dflt
deriving DecidableEq, Repr

/-- `Pile._getitem` (behind `__getitem__`): integer index and identity-key
string return the single element; a slice always builds a new `Pile` (with
the parent's `item_type`, `strict` left at its default `False`); any other
key is normalized by `to_list_type` (whose Type-kind error propagates, being
outside the `try`) and resolved member-wise, returning the element itself
when exactly one resolves, a new `Pile` when several do; every failure inside
the `try` blocks is converted to `ItemNotFoundError`. -/
def pileGetitem (p : Pile) (key : PKey) : Except Err RVal :=
  match key with
  | .idx i =>
      match progGet p.order i with
      | some k =>
          match dictLookup p.pile_ k with
          | some it => .ok (.one it)
          | none => .error .itemNotFound
      | none => .error .itemNotFound
  | .slc s =>
      match mapMOpt (dictLookup p.pile_) (progGetSlice p.order s) with
      | some items =>
          match pileInit items p.item_type none false with
          | .ok q => .ok (.pile q)
          | .error _ => .error .itemNotFound
      | none => .error .itemNotFound
  | .sid k =>
      match dictLookup p.pile_ k with
      | some it => .ok (.one it)
      | none => .error .itemNotFound
  | k =>
      match to_list_type_key k with
      | .error e => .error e
      | .ok ks =>
          match mapMErr (fun m =>
              match get_id m with
              | .error e => .error e
              | .ok id_ =>
                  match dictLookup p.pile_ id_ with
                  | some it => Except.ok it
                  | none => Except.error Err.keyErr) ks with
          | .error _ => .error .itemNotFound
          | .ok [] => .error .itemNotFound
          | .ok [it] => .ok (.one it)
          | .ok items =>
              match pileInit items p.item_type none false with
              | .ok q => .ok (.pile q)
              | .error _ => .error .itemNotFound

/-- `Pile._setitem`: validate the items, refuse (Exists-kind) any incoming key
already present anywhere in the current order, then: for index/slice keys
replace the addressed span in the order, drop the replaced keys from the
dict, and merge the new items in (failures inside that `try` surface as
`ValueError`); for other keys, normalize the key (Type-kind error
propagates), require it to match the incoming identity keys exactly
(Key-kind error otherwise), then append to the order and merge the dict.
An empty normalized key list hits Python's `key[0]` and is an index error.
(The Python code also flattens a key whose first member is itself a list;
nested key lists are not representable in `KElem` and are omitted.) -/
def pileSetitem (p : Pile) (key : PKey) (items : List Item) : Except Err Pile :=
  match validate_pile p.item_type p.strict items with
  | .error e => .error e
  | .ok d =>
      let itemOrder := dictKeys d
      if itemOrder.any (fun i => i ∈ p.order) then .error .itemExists
      else
        match key with
        | .idx i =>
            match progGet p.order i with
            | none => .error .valueErr
            | some k0 =>
                match progSetIndex p.order i itemOrder with
                | none => .error .valueErr
                | some ord' =>
                    .ok { p with order := ord',
                                 pile_ := dictUpdate (dictPop p.pile_ k0) d }
        | .slc s =>
            let delete := progGetSlice p.order s
            .ok { p with order := progSetSlice p.order s itemOrder,
                         pile_ := dictUpdate (delete.foldl dictPop p.pile_) d }
        | k =>
            match to_list_type_key k with
            | .error e => .error e
            | .ok [] => .error .indexErr
            | .ok ks =>
                if ks.length ≠ itemOrder.length then .error .keyErr
                else
                  match mapMErr get_id ks with
                  | .error e => .error e
                  | .ok ids =>
                      if ids.any (fun i => i ∉ itemOrder) then .error .keyErr
                      else .ok { p with order := progAppend p.order ids,
                                        pile_ := dictUpdate p.pile_ d }

/-- The loop shared by both branches of `Pile._pop`: for each key, remove it
from the order (`Progression.remove`, NotFound-kind stops the loop), then pop
it from the dict (an absent dict entry also stops the loop, with the order
already mutated).  Returns the final order, dict, collected items, and
whether every key was removed. -/
def popLoop (ord : Order) (d : Dict) :
    List LionId → Order × Dict × List Item × Bool
  | [] => (ord, d, [], true)
  | k :: rest =>
      match progRemove ord k with
      | none => (ord, d, [], false)
      | some ord' =>
          match dictLookup d k with
          | none => (ord', d, [], false)
          | some it =>
              let r := popLoop ord' (dictPop d k) rest
              (r.1, r.2.1, it :: r.2.2.1, r.2.2.2)

/-- The keys a `pop` call addresses: `self.order[key]` for an index (an
out-of-range index is the caught `IndexError`) or a slice, and
`validate_order(key)` for everything else. -/
def popKeyIds (p : Pile) (key : PKey) : Except Err (List LionId) :=
  match key with
  | .idx i =>
      match progGet p.order i with
      | none => .error .itemNotFound
      | some k => .ok [k]
  | .slc s => .ok (progGetSlice p.order s)
  | k => util_validate_order k

/-- How `_pop` packages the removed items, which differs between the
index/slice branch and the `validate_order` branch of the Python code: an
empty result hits `result[0]` (`IndexError`) in the former and an explicit
`ItemNotFoundError` raise in the latter; a single item is returned directly;
several items are returned as a new `Pile` with the parent's `item_type` and
default `strict` (the `validate_order` branch also passes `order=key`). -/
def popPackage (p : Pile) (key : PKey) (ids : List LionId) (items : List Item) :
    Except Err RVal :=
  match key with
  | .idx _ =>
      match items with
      | [it] => .ok (.one it)
      | _ => .error .indexErr
  | .slc _ =>
      match items with
      | [] => .error .indexErr
      | [it] => .ok (.one it)
      | its =>
          match pileInit its p.item_type none false with
          | .ok q => .ok (.pile q)
          | .error e => .error e
  | _ =>
      match items with
      | [] => .error .itemNotFound
      | [it] => .ok (.one it)
      | its =>
          match pileInit its p.item_type (some ids) false with
          | .ok q => .ok (.pile q)
          | .error e => .error e

/-- `Pile._pop` without the default handling: resolve the addressed keys,
remove them one by one from the order and the dict (so a miss midway leaves
the earlier removals applied — the post-state is returned in both the
success and the failure component), then package the removed items. -/
def pilePopRaw (p : Pile) (key : PKey) : Except Err RVal × Pile :=
  match popKeyIds p key with
  | .error e => (.error e, p)
  | .ok ids =>
      let r := popLoop p.order p.pile_ ids
      let p' := { p with order := r.1, pile_ := r.2.1 }
      if r.2.2.2 then (popPackage p key ids r.2.2.1, p')
      else (.error .keyErr, p')

/-- `Pile.pop(key, default)`: `_pop` with its enclosing `try`s — any failure
returns the supplied default, or raises `ItemNotFoundError` when no default
was supplied; the post-state is whatever `_pop` left behind. -/
def pilePop (p : Pile) (key : PKey) (hasDefault : Bool) : Except Err RVal × Pile :=
  match pilePopRaw p key with
  | (.ok v, st) => (.ok v, st)
  | (.error _, st) =>
      if hasDefault then (.ok .dflt, st) else (.error .itemNotFound, st)

/-- `Pile._include`: validate the items, append the identity keys not already
in the order, and merge the whole validated dict (so an already-present key
has its value refreshed). -/
def pileInclude (p : Pile) (items : List Item) : Except Err Pile :=
  match validate_pile p.item_type p.strict items with
  | .error e => .error e
  | .ok d =>
      let itemOrder := (dictKeys d).filter (fun i => i ∉ p.order)
      .ok { p with order := progAppend p.order itemOrder,
                   pile_ := dictUpdate p.pile_ d }

/-- `Pile.update` / `Pile._update` / `Pile._append`: alias for `include`. -/
def pileUpdate (p : Pile) (items : List Item) : Except Err Pile :=
  pileInclude p items

/-- `Pile._exclude`: keep the members already present (`i in self`, i.e. the
item's identity key is in the order) and `pop` them without a default; absent
members are silently skipped.  The threaded state is returned alongside the
(`pop`-raised, if any) error. -/
def pileExclude (p : Pile) (items : List Item) : Except Err Unit × Pile :=
  let excl := items.filter (fun it => it.ln_id ∈ p.order)
  if excl = [] then (.ok (), p)
  else
    let r := pilePop p (.coll (excl.map KElem.kitem)) false
    (r.1.map (fun _ => ()), r.2)

/-- `Pile._remove`: if the item is a member (`item in self`), `pop` it (no
default), else `ItemNotFoundError`. -/
def pileRemove (p : Pile) (it : Item) : Except Err Unit × Pile :=
  if it.ln_id ∈ p.order then
    let r := pilePop p (.pitem it) false
    (r.1.map (fun _ => ()), r.2)
  else (.error .itemNotFound, p)

/-- `Pile._insert`: validate the items, refuse (Exists-kind) identity keys
already in the order, then `Progression.insert` them at the index and merge
the dict. -/
def pileInsert (p : Pile) (index : Int) (items : List Item) : Except Err Pile :=
  match validate_pile p.item_type p.strict items with
  | .error e => .error e
  | .ok d =>
      let itemOrder := dictKeys d
      if itemOrder.any (fun i => i ∈ p.order) then .error .itemExists
      else
        match progInsert p.order index itemOrder with
        | some ord' =>
            .ok { p with order := ord', pile_ := dictUpdate p.pile_ d }
        | none => .error .itemExists

/-- `Pile._clear`: empty both the dict and the order. -/
def pileClear (p : Pile) : Pile := { p with pile_ := [], order := [] }

/-- `Pile.values()`: `[self.pile_[key] for key in self.order]` (a lookup miss
would be a `KeyError`, hence the `Option`). -/
def pileValues (p : Pile) : Option (List Item) :=
  mapMOpt (dictLookup p.pile_) p.order

/-- Is the key a Python `list` whose members are all `int`s?  (`Pile._get`
special-cases that shape and indexes directly instead of resolving ids.) -/
def isIntList : PKey → Bool
  | .coll l => l.all (fun e => match e with | .kint _ => true | _ => false)
  | _ => false

/-- The element loop of `Pile._get`: `result.append(self[k])` over the
resolved keys; each `self[k]` must produce a single element. -/
def getLoop (p : Pile) (ks : List PKey) : Except Err (List Item) :=
  mapMErr (fun k =>
    match pileGetitem p k with
    | .ok (.one it) => .ok it
    | .ok _ => .error .itemNotFound
    | .error e => .error e) ks

/-- `Pile._get` (behind the public, documented `get(key, default)`):
index/slice keys delegate to `__getitem__`; otherwise a list of ints is
indexed member-wise, any other key is resolved by `validate_order` and looked
up id by id, a single hit being returned directly and several as a new
`Pile`; every failure yields the default when one was supplied and
`ItemNotFoundError` otherwise. -/
def pileGet (p : Pile) (key : PKey) (hasDefault : Bool) : Except Err RVal :=
  match key with
  | .idx i =>
      match pileGetitem p (.idx i) with
      | .ok v => .ok v
      | .error _ =>
          if hasDefault then .ok .dflt else .error .itemNotFound
  | .slc s =>
      match pileGetitem p (.slc s) with
      | .ok v => .ok v
      | .error _ =>
          if hasDefault then .ok .dflt else .error .itemNotFound
  | k =>
      let inner : Except Err RVal :=
        match
          (if isIntList k then
            match k with
            | .coll l =>
                Except.ok (l.filterMap (fun e =>
                  match e with | .kint n => some (PKey.idx n) | _ => none))
            | _ => Except.ok []
          else
            (util_validate_order k).map (fun ids => ids.map PKey.sid)) with
        | .error e => .error e
        | .ok subkeys =>
            match getLoop p subkeys with
            | .error e => .error e
            | .ok [] => .error .itemNotFound
            | .ok [it] => .ok (.one it)
            | .ok items =>
                match pileInit items p.item_type none false with
                | .ok q => .ok (.pile q)
                | .error e => .error e
      match inner with
      | .ok v => .ok v
      | .error _ =>
          if hasDefault then .ok .dflt else .error .itemNotFound

/-! ## Serialization, async forms, iteration, operators -/

/-- The serialized form of a `Pile` (`to_dict()`): the `field_serializer` for
`pile_` emits `[i.to_dict() for i in value.values()]` — the elements' own
serialized forms in the *dict's insertion order* (an element's `to_dict` /
`Element.from_dict` round-trip is modelled as the identity, the element
abstraction being outside the provided sources); `order` and `item_type` are
`exclude=True` fields and are not serialized, while `strict` is. -/
structure PileDump where
  pile_dump : List Item
  strict : Bool
deriving DecidableEq, Repr

/-- `Pile.to_dict()` restricted to the fields `from_dict` consumes. -/
def pileToDict (p : Pile) : PileDump :=
  { pile_dump := p.pile_.map Prod.snd, strict := p.strict }

/-- `Pile.dump(clear)`: export `to_dict()`, then optionally `clear()`. -/
def pileDump (p : Pile) (clear : Bool) : PileDump × Pile :=
  (pileToDict p, if clear then pileClear p else p)

/-- `Pile.adump(clear)`: the `async` form runs `self.dump(clear=clear)` but
its body has no `return` statement, so (its `-> dict` annotation
notwithstanding) the coroutine returns Python's `None`, modelled as `none`. -/
def pileAdump (p : Pile) (clear : Bool) : Option PileDump × Pile :=
  (none, (pileDump p clear).2)

/-- `Pile.load` / `Pile.from_dict`: rebuild each element from the serialized
sequence and construct a fresh pile from them (`item_type` and `order` were
not serialized, so the order is re-derived from the insertion sequence, and
`strict` is passed back through `**data`). -/
def pileLoad (d : PileDump) : Except Err Pile :=
  pileInit d.pile_dump none none d.strict

/-- `Pile.ainclude`: runs `_include`, then additionally raises
`LionTypeError` if `item not in self` — membership of the argument, i.e. of
every included member's identity key, in the order. -/
def pileAinclude (p : Pile) (items : List Item) : Except Err Pile :=
  match pileInclude p items with
  | .error e => .error e
  | .ok p' =>
      if items.all (fun it => it.ln_id ∈ p'.order) then .ok p'
      else .error .lionType

/-- The loop of `Pile.__iter__` after the locked snapshot: for each key of
the snapshot, yield `self.pile_[key]` — a plain dict lookup against the
*current* dict, raising `KeyError` when the snapshotted key has been removed
in the meantime. -/
def iterPile (snapshot : Order) (pile_ : Dict) : Except Err (List Item) :=
  mapMErr (fun k =>
    match dictLookup pile_ k with
    | some it => Except.ok it
    | none => Except.error Err.keyErr) snapshot

/-- `Pile.__add__`: build a new pile from `self.values()` with the parent's
`item_type` and `order` (leaving `strict` at its default `False`), then
`include` the other item(s) into it. -/
def pileAdd (p : Pile) (other : List Item) : Except Err Pile :=
  match pileValues p with
  | none => .error .keyErr
  | some vals =>
      match pileInit vals p.item_type (some p.order) false with
      | .error e => .error e
      | .ok r => pileInclude r other

/-- `Pile.__sub__`: build a new pile the same way, then `pop` the other
item(s) from it with no default (so an absent member raises). -/
def pileSub (p : Pile) (otherKey : PKey) : Except Err Pile :=
  match pileValues p with
  | none => .error .keyErr
  | some vals =>
      match pileInit vals p.item_type (some p.order) false with
      | .error e => .error e
      | .ok r =>
          match (pilePop r otherKey false).1 with
          | .ok _ => .ok (pilePop r otherKey false).2
          | .error e => .error e

/-! ## Lock discipline

The spec's lock-discipline sentence is about which methods wrap their
structural mutations in `with self.lock` (the `@synchronized` decorator) or
`async with self.async_lock` (`@async_synchronized`).  Each public method's
body is abstracted to its sequence of lock and mutation events for a
successful single-element call, read off the decorators and mutation
statements in `pile.py`. -/

/-- Lock/mutation events: acquire/release of the blocking lock, acquire/
release of the cooperative lock, a mutation of the order `Progression`, a
mutation of the `pile_` dict. -/
inductive LAct
  | acq
  | rel
  | acqA
  | relA
  | mutOrd
  | mutMap
deriving DecidableEq, Repr

/-- `include` / `update` (undecorated; `_include` appends to the order, then
updates the dict). -/
def includeActs : List LAct := [.mutOrd, .mutMap]

/-- `__setitem__` (undecorated; `_setitem` writes the order, then the dict). -/
def setitemActs : List LAct := [.mutOrd, .mutMap]

/-- `pop` (`@synchronized`). -/
def popActs : List LAct := [.acq, .mutOrd, .mutMap, .rel]

/-- `clear` (`@synchronized`; `_clear` clears the dict, then the order). -/
def clearActs : List LAct := [.acq, .mutMap, .mutOrd, .rel]

/-- `insert` (`@synchronized`). -/
def insertActs : List LAct := [.acq, .mutOrd, .mutMap, .rel]

/-- `append` (`@synchronized`, delegating to `update`/`include`). -/
def appendActs : List LAct := [.acq, .mutOrd, .mutMap, .rel]

/-- `remove` (undecorated, but its only mutation is the inner `self.pop`,
which is `@synchronized`). -/
def removeActs : List LAct := [.acq, .mutOrd, .mutMap, .rel]

/-- `exclude` (undecorated, but its only mutation is the inner `self.pop`). -/
def excludeActs : List LAct := [.acq, .mutOrd, .mutMap, .rel]

/-- `update` (undecorated, delegating to `include`). -/
def updateActs : List LAct := [.mutOrd, .mutMap]

/-- `asetitem` (`@async_synchronized`). -/
def asetitemActs : List LAct := [.acqA, .mutOrd, .mutMap, .relA]

/-- `apop` (`@async_synchronized`). -/
def apopActs : List LAct := [.acqA, .mutOrd, .mutMap, .relA]

/-- `ainclude` (`@async_synchronized`). -/
def aincludeActs : List LAct := [.acqA, .mutOrd, .mutMap, .relA]

/-- `aexclude` (`@async_synchronized`). -/
def aexcludeActs : List LAct := [.acqA, .mutOrd, .mutMap, .relA]

/-- `aclear` (`@async_synchronized`). -/
def aclearActs : List LAct := [.acqA, .mutMap, .mutOrd, .relA]

/-- `aupdate` (`@async_synchronized`). -/
def aupdateActs : List LAct := [.acqA, .mutOrd, .mutMap, .relA]

/-- `aremove` (`@async_synchronized`). -/
def aremoveActs : List LAct := [.acqA, .mutOrd, .mutMap, .relA]

/-- Scan of an event sequence: `true` iff every structural mutation happens
while at least one of the two locks is held (depths `db` for the blocking
lock, `da` for the cooperative one), with no release-and-reacquire between a
method's mutations. -/
def lockDepthOk : Nat → Nat → List LAct → Bool
  | _, _, [] => true
  | db, da, .acq :: r => lockDepthOk (db + 1) da r
  | db, da, .rel :: r => lockDepthOk (db - 1) da r
  | db, da, .acqA :: r => lockDepthOk db (da + 1) r
  | db, da, .relA :: r => lockDepthOk db (da - 1) r
  | db, da, .mutOrd :: r => (db + da > 0) && lockDepthOk db da r
  | db, da, .mutMap :: r => (db + da > 0) && lockDepthOk db da r

/-- A method holds a mutual-exclusion lock across all its structural
mutations. -/
def lockedThroughout (acts : List LAct) : Bool := lockDepthOk 0 0 acts

/-! ## The central cross-structure invariant -/

/-- The order sequence and the dict hold the same key set. -/
def sameKeys (ord : Order) (d : Dict) : Prop :=
  (∀ k ∈ ord, k ∈ dictKeys d) ∧ (∀ k ∈ dictKeys d, k ∈ ord)

/-- The bijection invariant: the order is duplicate-free, the dict's keys are
duplicate-free, and the two key sets coincide. -/
def inv (p : Pile) : Prop :=
  p.order.Nodup ∧ (dictKeys p.pile_).Nodup ∧ sameKeys p.order p.pile_

/-- Every dict binding maps an identity key to the element bearing it. -/
def dictWf (d : Dict) : Prop := ∀ kv ∈ d, kv.1 = kv.2.ln_id

/-- A declared `item_type` set is duplicate-free and nonempty (what
`_validate_item_type` guarantees about any `item_type` it returns). -/
def itemTypeOkP : Option (List Nat) → Prop
  | some ts => ts.Nodup ∧ ts ≠ []
  | none => True

instance : ∀ o, Decidable (itemTypeOkP o)
  | some ts => inferInstanceAs (Decidable (ts.Nodup ∧ ts ≠ []))
  | none => inferInstanceAs (Decidable True)

deriving instance DecidableEq for Except

/-- Well-typedness of a state: a declared `item_type` is duplicate-free and
nonempty (as `_validate_item_type` guarantees on construction), and every
stored element passes the non-strict gate (which is implied by having passed
either gate on the way in). -/
def goodTypes (p : Pile) : Prop :=
  itemTypeOkP p.item_type ∧
  (∀ kv ∈ p.pile_, checkItemType p.item_type false kv.2 = Except.ok ())

/-- A healthy pile: invariant, well-formed bindings, well-typed contents.
All three hold in every state reachable from a fresh pile. -/
def good (p : Pile) : Prop := inv p ∧ dictWf p.pile_ ∧ goodTypes p

instance (ord : Order) (d : Dict) : Decidable (sameKeys ord d) :=
  inferInstanceAs (Decidable (_ ∧ _))

instance (p : Pile) : Decidable (inv p) :=
  inferInstanceAs (Decidable (_ ∧ _ ∧ _))

instance (d : Dict) : Decidable (dictWf d) :=
  inferInstanceAs (Decidable (∀ kv ∈ d, kv.1 = kv.2.ln_id))

instance (p : Pile) : Decidable (goodTypes p) :=
  inferInstanceAs (Decidable (_ ∧ _))

instance (p : Pile) : Decidable (good p) :=
  inferInstanceAs (Decidable (_ ∧ _ ∧ _))

theorem sameKeys_iff {ord : Order} {d : Dict} :
    sameKeys ord d ↔ ∀ k, k ∈ ord ↔ k ∈ dictKeys d := by
  constructor
  · rintro ⟨h1, h2⟩ k
    exact ⟨fun hk => h1 k hk, fun hk => h2 k hk⟩
  · intro h
    exact ⟨fun k hk => (h k).1 hk, fun k hk => (h k).2 hk⟩

/-! ## Lemmas about the dict model -/

theorem dictLookup_isSome_iff {d : Dict} {k : LionId} :
    (dictLookup d k).isSome ↔ k ∈ dictKeys d := by
  induction d with
  | nil => simp [dictLookup, dictKeys]
  | cons kv rest ih =>
      by_cases h : kv.1 = k
      · simp [dictLookup, dictKeys, h]
      · simpa [dictLookup, dictKeys, h, Ne.symm h] using ih

theorem dictLookup_mem {d : Dict} {k : LionId} {v : Item}
    (h : dictLookup d k = some v) : (k, v) ∈ d := by
  induction d with
  | nil => simp [dictLookup] at h
  | cons kv rest ih =>
      obtain ⟨k', v'⟩ := kv
      by_cases hk : k' = k
      · rw [dictLookup, if_pos hk] at h
        cases h
        subst hk
        exact List.mem_cons_self _ _
      · rw [dictLookup, if_neg hk] at h
        exact List.mem_cons_of_mem _ (ih h)

theorem dictSet_of_not_mem {d : Dict} {k : LionId} (v : Item)
    (h : k ∉ dictKeys d) : dictSet d k v = d ++ [(k, v)] := by
  induction d with
  | nil => simp [dictSet]
  | cons kv rest ih =>
      simp only [dictKeys, List.map_cons, List.mem_cons, not_or] at h
      rw [dictSet, if_neg (fun hh => h.1 hh.symm), ih h.2]
      simp

theorem dictKeys_dictSet_of_mem {d : Dict} {k : LionId} (v : Item)
    (h : k ∈ dictKeys d) : dictKeys (dictSet d k v) = dictKeys d := by
  induction d with
  | nil => simp [dictKeys] at h
  | cons kv rest ih =>
      by_cases hk : kv.1 = k
      · simp [dictSet, dictKeys, hk]
      · simp only [dictKeys, List.map_cons, List.mem_cons] at h
        rcases h with h | h
        · exact absurd h.symm hk
        · rw [dictSet, if_neg hk]
          show kv.1 :: dictKeys (dictSet rest k v) = kv.1 :: dictKeys rest
          rw [ih h]

theorem mem_dictKeys_dictSet {d : Dict} {k a : LionId} (v : Item) :
    a ∈ dictKeys (dictSet d k v) ↔ a ∈ dictKeys d ∨ a = k := by
  by_cases h : k ∈ dictKeys d
  · rw [dictKeys_dictSet_of_mem v h]
    constructor
    · exact Or.inl
    · rintro (ha | rfl) <;> [exact ha; exact h]
  · rw [dictSet_of_not_mem v h, dictKeys, List.map_append]
    simp [dictKeys]

theorem nodup_dictKeys_dictSet {d : Dict} {k : LionId} (v : Item)
    (h : (dictKeys d).Nodup) : (dictKeys (dictSet d k v)).Nodup := by
  by_cases hk : k ∈ dictKeys d
  · rwa [dictKeys_dictSet_of_mem v hk]
  · rw [dictSet_of_not_mem v hk]
    have : dictKeys (d ++ [(k, v)]) = dictKeys d ++ [k] := by
      simp [dictKeys]
    rw [this, List.nodup_append]
    refine ⟨h, by simp, fun a ha hb => ?_⟩
    rw [List.mem_singleton] at hb
    exact hk (hb ▸ ha)

theorem dictKeys_dictPop {d : Dict} {k : LionId} :
    dictKeys (dictPop d k) = (dictKeys d).erase k := by
  induction d with
  | nil => simp [dictPop, dictKeys]
  | cons kv rest ih =>
      by_cases hk : kv.1 = k
      · simp [dictPop, dictKeys, hk, List.erase_cons_head]
      · rw [dictPop, if_neg hk]
        simp only [dictKeys, List.map_cons] at ih ⊢
        rw [List.erase_cons_tail, ih]
        simp [hk]

theorem mem_dictKeys_dictUpdate {e d : Dict} {a : LionId} :
    a ∈ dictKeys (dictUpdate d e) ↔ a ∈ dictKeys d ∨ a ∈ dictKeys e := by
  induction e generalizing d with
  | nil => simp [dictUpdate, dictKeys]
  | cons kv rest ih =>
      simp only [dictUpdate, List.foldl_cons] at ih ⊢
      rw [ih, mem_dictKeys_dictSet]
      simp only [dictKeys, List.map_cons, List.mem_cons]
      tauto

theorem nodup_dictKeys_dictUpdate {e d : Dict}
    (h : (dictKeys d).Nodup) : (dictKeys (dictUpdate d e)).Nodup := by
  induction e generalizing d with
  | nil => simpa [dictUpdate, dictKeys]
  | cons kv rest ih =>
      simp only [dictUpdate, List.foldl_cons]
      exact ih (nodup_dictKeys_dictSet kv.2 h)

theorem dictKeys_foldl_dictPop {seg : List LionId} {d : Dict}
    (h : (dictKeys d).Nodup) :
    (dictKeys (seg.foldl dictPop d)).Nodup ∧
      ∀ a, a ∈ dictKeys (seg.foldl dictPop d) ↔ a ∈ dictKeys d ∧ a ∉ seg := by
  induction seg generalizing d with
  | nil => simp [h]
  | cons b rest ih =>
      rw [List.foldl_cons]
      have hkeys : dictKeys (dictPop d b) = (dictKeys d).erase b := dictKeys_dictPop
      have hnd : (dictKeys (dictPop d b)).Nodup := by
        rw [hkeys]; exact h.erase b
      refine ⟨(ih hnd).1, fun a => ?_⟩
      rw [(ih hnd).2 a, hkeys, h.mem_erase_iff]
      simp only [List.mem_cons]
      tauto

/-! ## Lemmas about the order model -/

theorem mem_progAppendOne {ord : Order} {k a : LionId} :
    a ∈ progAppendOne ord k ↔ a ∈ ord ∨ a = k := by
  by_cases h : k ∈ ord
  · rw [progAppendOne, if_pos h]
    exact ⟨Or.inl, fun hm => hm.elim id (fun ha => ha ▸ h)⟩
  · rw [progAppendOne, if_neg h]
    simp

theorem nodup_progAppendOne {ord : Order} {k : LionId}
    (h : ord.Nodup) : (progAppendOne ord k).Nodup := by
  by_cases hk : k ∈ ord
  · rwa [progAppendOne, if_pos hk]
  · rw [progAppendOne, if_neg hk]
    simpa [List.nodup_append] using ⟨h, hk⟩

theorem mem_progAppend {ks : List LionId} {ord : Order} {a : LionId} :
    a ∈ progAppend ord ks ↔ a ∈ ord ∨ a ∈ ks := by
  induction ks generalizing ord with
  | nil => simp [progAppend]
  | cons k rest ih =>
      simp only [progAppend, List.foldl_cons] at ih ⊢
      rw [ih, mem_progAppendOne]
      simp only [List.mem_cons]
      tauto

theorem nodup_progAppend {ks : List LionId} {ord : Order}
    (h : ord.Nodup) : (progAppend ord ks).Nodup := by
  induction ks generalizing ord with
  | nil => simpa [progAppend]
  | cons k rest ih =>
      simp only [progAppend, List.foldl_cons]
      exact ih (nodup_progAppendOne h)

/-! ## Lemmas about validation -/

theorem validate_pileAux_nodup {t : Option (List Nat)} {s : Bool} :
    ∀ {items : List Item} {acc d : Dict},
      validate_pileAux t s acc items = .ok d →
      (dictKeys acc).Nodup → (dictKeys d).Nodup
  | [], acc, d, h, hn => by
      rw [validate_pileAux] at h
      cases h
      exact hn
  | it :: rest, acc, d, h, hn => by
      rw [validate_pileAux] at h
      cases hc : checkItemType t s it with
      | ok u =>
          rw [hc] at h
          exact validate_pileAux_nodup h (nodup_dictKeys_dictSet it hn)
      | error e => rw [hc] at h; cases h

theorem dictWf_dictSet {d : Dict} {k : LionId} {v : Item}
    (hw : dictWf d) (hv : k = v.ln_id) : dictWf (dictSet d k v) := by
  induction d with
  | nil =>
      intro kv hkv
      rw [dictSet, List.mem_singleton] at hkv
      subst hkv
      exact hv
  | cons kv0 rest ih =>
      intro kv hkv
      by_cases h0 : kv0.1 = k
      · rw [dictSet, if_pos h0] at hkv
        rcases List.mem_cons.mp hkv with h1 | h1
        · subst h1; exact hv
        · exact hw _ (List.mem_cons_of_mem _ h1)
      · rw [dictSet, if_neg h0] at hkv
        rcases List.mem_cons.mp hkv with h1 | h1
        · exact hw _ (h1 ▸ List.mem_cons_self _ _)
        · exact ih (fun kv2 hkv2 => hw _ (List.mem_cons_of_mem _ hkv2)) _ h1

theorem validate_pileAux_wf {t : Option (List Nat)} {s : Bool} :
    ∀ {items : List Item} {acc d : Dict},
      validate_pileAux t s acc items = .ok d → dictWf acc → dictWf d
  | [], acc, d, h, hw => by
      rw [validate_pileAux] at h
      cases h
      exact hw
  | it :: rest, acc, d, h, hw => by
      rw [validate_pileAux] at h
      cases hc : checkItemType t s it with
      | ok u =>
          rw [hc] at h
          exact validate_pileAux_wf h (dictWf_dictSet hw rfl)
      | error e => rw [hc] at h; cases h

theorem validate_pileAux_mem {t : Option (List Nat)} {s : Bool} :
    ∀ {items : List Item} {acc d : Dict},
      validate_pileAux t s acc items = .ok d →
      ∀ a, a ∈ dictKeys d ↔ a ∈ dictKeys acc ∨ a ∈ items.map Item.ln_id
  | [], acc, d, h, a => by
      rw [validate_pileAux] at h
      cases h
      simp
  | it :: rest, acc, d, h, a => by
      rw [validate_pileAux] at h
      cases hc : checkItemType t s it with
      | ok u =>
          rw [hc] at h
          rw [validate_pileAux_mem h a, mem_dictKeys_dictSet]
          simp only [List.map_cons, List.mem_cons]
          tauto
      | error e => rw [hc] at h; cases h

theorem validate_pileAux_checked {t : Option (List Nat)} {s : Bool} :
    ∀ {items : List Item} {acc d : Dict},
      validate_pileAux t s acc items = .ok d →
      ∀ it ∈ items, checkItemType t s it = .ok ()
  | [], acc, d, h, it, hit => by simp at hit
  | it0 :: rest, acc, d, h, it, hit => by
      rw [validate_pileAux] at h
      cases hc : checkItemType t s it0 with
      | ok u =>
          rw [hc] at h
          rcases List.mem_cons.mp hit with h1 | h1
          · subst h1; rw [hc]
          · exact validate_pileAux_checked h it h1
      | error e => rw [hc] at h; cases h

/-- When every item passes the gate, `_validate_pile` succeeds and the result
is the fold of `result[i.ln_id] = i` over the batch. -/
theorem validate_pileAux_ok_of_checked {t : Option (List Nat)} {s : Bool} :
    ∀ {items : List Item} (acc : Dict),
      (∀ it ∈ items, checkItemType t s it = .ok ()) →
      validate_pileAux t s acc items =
        .ok (items.foldl (fun a it => dictSet a it.ln_id it) acc)
  | [], acc, h => by rw [validate_pileAux]; simp
  | it :: rest, acc, h => by
      rw [validate_pileAux, h it (List.mem_cons_self _ _)]
      rw [validate_pileAux_ok_of_checked (dictSet acc it.ln_id it)
        (fun i hi => h i (List.mem_cons_of_mem _ hi))]
      simp

/-- Folding `dictSet` over items whose keys are fresh and pairwise distinct
appends their bindings in order. -/
theorem foldl_dictSet_eq :
    ∀ {items : List Item} {acc : Dict},
      (∀ it ∈ items, it.ln_id ∉ dictKeys acc) →
      (items.map Item.ln_id).Nodup →
      items.foldl (fun a it => dictSet a it.ln_id it) acc =
        acc ++ items.map (fun it => (it.ln_id, it))
  | [], acc, h, hn => by simp
  | it :: rest, acc, h, hn => by
      rw [List.foldl_cons, dictSet_of_not_mem it (h it (List.mem_cons_self _ _))]
      rw [List.map_cons, List.nodup_cons] at hn
      rw [foldl_dictSet_eq (fun i hi => ?_) hn.2]
      · simp
      · intro hcontra
        have : dictKeys (acc ++ [(it.ln_id, it)]) = dictKeys acc ++ [it.ln_id] := by
          simp [dictKeys]
        rw [this, List.mem_append, List.mem_singleton] at hcontra
        rcases hcontra with h1 | h1
        · exact h i (List.mem_cons_of_mem _ hi) h1
        · exact hn.1 (h1 ▸ List.mem_map_of_mem Item.ln_id hi)

/-! ## Splice lemmas: index/slice assignment on the two structures -/

/-- The order decomposes around a slice: prefix, addressed span, suffix. -/
theorem progSlice_decomp (ord : Order) (s : Sl) :
    ord = ord.take (normIdx ord.length s.start) ++ progGetSlice ord s ++
      ord.drop (max (normIdx ord.length s.start) (normIdx ord.length s.stop)) := by
  set a := normIdx ord.length s.start with ha
  set b := normIdx ord.length s.stop with hb
  have hmax : max a b = a + (b - a) := by omega
  rw [hmax, ← List.drop_drop, progGetSlice, ← ha, ← hb]
  rw [List.append_assoc, List.take_append_drop, List.take_append_drop]

/-- `progSetSlice` is the prefix, the new keys, then the suffix. -/
theorem progSetSlice_eq (ord : Order) (s : Sl) (keys : List LionId) :
    progSetSlice ord s keys =
      ord.take (normIdx ord.length s.start) ++ keys ++
        ord.drop (max (normIdx ord.length s.start) (normIdx ord.length s.stop)) := rfl

/-- Splicing `new` over the span `seg` of a duplicate-free order, while the
dict drops the span keys and gains `dnew`'s keys, preserves both nodup
conditions and the key-set agreement. -/
theorem splice_inv {pre seg post : Order} {d dnew : Dict} {new : List LionId}
    (hnd : (pre ++ seg ++ post).Nodup)
    (hkeys : (dictKeys d).Nodup)
    (hsk : sameKeys (pre ++ seg ++ post) d)
    (hnewnd : new.Nodup)
    (hfresh : ∀ a ∈ new, a ∉ pre ++ seg ++ post)
    (hdn : ∀ a, a ∈ dictKeys dnew ↔ a ∈ new) :
    (pre ++ new ++ post).Nodup ∧
    (dictKeys (dictUpdate (seg.foldl dictPop d) dnew)).Nodup ∧
    sameKeys (pre ++ new ++ post) (dictUpdate (seg.foldl dictPop d) dnew) := by
  have hpop := @dictKeys_foldl_dictPop seg d hkeys
  simp only [List.nodup_append, List.disjoint_append_left,
    List.disjoint_append_right] at hnd
  obtain ⟨⟨hpre, hseg, hps⟩, hpost, hprepost, hsegpost⟩ := hnd
  refine ⟨?_, nodup_dictKeys_dictUpdate hpop.1, ?_⟩
  · simp only [List.nodup_append, List.disjoint_append_left,
      List.disjoint_append_right]
    refine ⟨⟨hpre, hnewnd, fun a ha hb => ?_⟩, hpost, hprepost,
      fun a ha hb => ?_⟩
    · exact hfresh a hb (by simp [ha])
    · exact hfresh a ha (by simp [hb])
  · rw [sameKeys_iff]
    intro k
    rw [mem_dictKeys_dictUpdate, hpop.2 k, hdn k]
    have hmem := (sameKeys_iff.mp hsk) k
    simp only [List.mem_append] at hmem ⊢
    constructor
    · rintro ((hk | hk) | hk)
      · exact Or.inl ⟨hmem.1 (Or.inl (Or.inl hk)), fun hc => hps hk hc⟩
      · exact Or.inr hk
      · exact Or.inl ⟨hmem.1 (Or.inr hk), fun hc => hsegpost hc hk⟩
    · rintro (⟨hk, hns⟩ | hk)
      · rcases hmem.2 hk with (hk2 | hk2) | hk2
        · exact Or.inl (Or.inl hk2)
        · exact absurd hk2 hns
        · exact Or.inr hk2
      · exact Or.inl (Or.inr hk)

/-! ## Lemmas about `popLoop` and construction -/

/-- Removing keys one by one keeps both structures duplicate-free and in
key-set agreement, whether or not the loop completes. -/
theorem popLoop_inv :
    ∀ (ks : List LionId) {ord : Order} {d : Dict},
      ord.Nodup → (dictKeys d).Nodup → sameKeys ord d →
      (popLoop ord d ks).1.Nodup ∧
        (dictKeys (popLoop ord d ks).2.1).Nodup ∧
        sameKeys (popLoop ord d ks).1 (popLoop ord d ks).2.1
  | [], ord, d, h1, h2, h3 => ⟨h1, h2, h3⟩
  | k :: rest, ord, d, h1, h2, h3 => by
      rw [popLoop]
      by_cases hk : k ∈ ord
      · rw [progRemove, if_pos hk]
        have hlk : (dictLookup d k).isSome := by
          rw [dictLookup_isSome_iff]
          exact (sameKeys_iff.mp h3 k).mp hk
        cases hl : dictLookup d k with
        | none => rw [hl] at hlk; simp at hlk
        | some it =>
            have h1' : (ord.erase k).Nodup := h1.erase k
            have h2' : (dictKeys (dictPop d k)).Nodup := by
              rw [dictKeys_dictPop]; exact h2.erase k
            have h3' : sameKeys (ord.erase k) (dictPop d k) := by
              rw [sameKeys_iff]
              intro a
              rw [dictKeys_dictPop, h1.mem_erase_iff, h2.mem_erase_iff]
              exact and_congr_right (fun _ => sameKeys_iff.mp h3 a)
            exact popLoop_inv rest h1' h2' h3'
      · rw [progRemove, if_neg hk]
        exact ⟨h1, h2, h3⟩

/-- Removing one key from both structures keeps the key sets in agreement. -/
theorem sameKeys_erase {ord : Order} {d : Dict} {k : LionId}
    (h1 : ord.Nodup) (h2 : (dictKeys d).Nodup) (h3 : sameKeys ord d) :
    sameKeys (ord.erase k) (dictPop d k) := by
  rw [sameKeys_iff]
  intro a
  rw [dictKeys_dictPop, h1.mem_erase_iff, h2.mem_erase_iff]
  exact and_congr_right (fun _ => sameKeys_iff.mp h3 a)

/-- The loop completes whenever the keys are distinct and all present. -/
theorem popLoop_ok :
    ∀ (ks : List LionId) {ord : Order} {d : Dict},
      ord.Nodup → (dictKeys d).Nodup → sameKeys ord d →
      ks.Nodup → (∀ k ∈ ks, k ∈ ord) →
      (popLoop ord d ks).2.2.2 = true
  | [], ord, d, _, _, _, _, _ => rfl
  | k :: rest, ord, d, h1, h2, h3, hnd, hsub => by
      rw [popLoop]
      have hk : k ∈ ord := hsub k (List.mem_cons_self _ _)
      rw [progRemove, if_pos hk]
      have hlk : (dictLookup d k).isSome := by
        rw [dictLookup_isSome_iff]
        exact (sameKeys_iff.mp h3 k).mp hk
      cases hl : dictLookup d k with
      | none => rw [hl] at hlk; simp at hlk
      | some it =>
          rw [List.nodup_cons] at hnd
          have h2' : (dictKeys (dictPop d k)).Nodup := by
            rw [dictKeys_dictPop]; exact h2.erase k
          refine popLoop_ok rest (h1.erase k) h2'
            (sameKeys_erase h1 h2 h3) hnd.2 (fun a ha => ?_)
          exact (h1.mem_erase_iff).mpr
            ⟨fun he => hnd.1 (he ▸ ha), hsub a (List.mem_cons_of_mem _ ha)⟩

/-- Every item collected by the loop is a value of the original dict. -/
theorem dictPop_subset {d : Dict} {k : LionId} :
    ∀ kv ∈ dictPop d k, kv ∈ d := by
  induction d with
  | nil => simp [dictPop]
  | cons kv0 rest ih =>
      intro kv hkv
      by_cases h0 : kv0.1 = k
      · rw [dictPop, if_pos h0] at hkv
        exact List.mem_cons_of_mem _ hkv
      · rw [dictPop, if_neg h0] at hkv
        rcases List.mem_cons.mp hkv with h1 | h1
        · exact h1 ▸ List.mem_cons_self _ _
        · exact List.mem_cons_of_mem _ (ih kv h1)

/-- Every item collected by the loop is a value of the original dict. -/
theorem popLoop_items :
    ∀ (ks : List LionId) {ord : Order} {d : Dict},
      ∀ it ∈ (popLoop ord d ks).2.2.1, ∃ k, (k, it) ∈ d
  | [], ord, d, it, hit => by simp [popLoop] at hit
  | k :: rest, ord, d, it, hit => by
      rw [popLoop] at hit
      cases hr : progRemove ord k with
      | none => rw [hr] at hit; simp at hit
      | some ord' =>
          rw [hr] at hit
          cases hl : dictLookup d k with
          | none => rw [hl] at hit; simp at hit
          | some it0 =>
              rw [hl] at hit
              rcases List.mem_cons.mp hit with h1 | h1
              · exact ⟨k, h1 ▸ dictLookup_mem hl⟩
              · obtain ⟨k', hk'⟩ := popLoop_items rest it h1
                exact ⟨k', dictPop_subset _ hk'⟩

/-- On a completed loop the collected items are in bijection with the keys. -/
theorem popLoop_length :
    ∀ (ks : List LionId) {ord : Order} {d : Dict},
      (popLoop ord d ks).2.2.2 = true →
      (popLoop ord d ks).2.2.1.length = ks.length
  | [], ord, d, _ => rfl
  | k :: rest, ord, d, h => by
      cases hr : progRemove ord k with
      | none => rw [popLoop, hr] at h; simp at h
      | some ord' =>
          cases hl : dictLookup d k with
          | none => rw [popLoop, hr, hl] at h; simp at h
          | some it0 =>
              rw [popLoop, hr, hl] at h
              rw [popLoop, hr, hl]
              dsimp only at h ⊢
              simp [popLoop_length rest h]

/-! ## Lemmas about construction (`__init__`) -/

/-- A duplicate-free list included in a duplicate-free list of the same
length exhausts it. -/
theorem subset_len_eq_mem {v w : List LionId} (hv : v.Nodup) (hw : w.Nodup)
    (hsub : ∀ a ∈ v, a ∈ w) (hlen : v.length = w.length) :
    ∀ a ∈ w, a ∈ v := by
  have h1 : v.toFinset ⊆ w.toFinset := by
    intro a ha
    rw [List.mem_toFinset] at ha ⊢
    exact hsub a ha
  have heq : v.toFinset = w.toFinset := by
    apply Finset.eq_of_subset_of_card_le h1
    rw [List.toFinset_card_of_nodup hv, List.toFinset_card_of_nodup hw, hlen]
  intro a ha
  rw [← List.mem_toFinset, heq, List.mem_toFinset]
  exact ha

/-- `_validate_item_type` accepts any healthy `item_type` unchanged. -/
theorem validate_item_type_ok {t : Option (List Nat)} (h : itemTypeOkP t) :
    validate_item_type t = .ok t := by
  cases t with
  | none => rfl
  | some ts =>
      obtain ⟨hnd, hne⟩ := h
      rw [validate_item_type, if_pos hnd,
        if_pos (List.length_pos.mpr hne)]

/-- Construction always establishes the bijection invariant. -/
theorem pileInit_inv {items : List Item} {t : Option (List Nat)}
    {ord : Option Order} {s : Bool} {p : Pile}
    (h : pileInit items t ord s = .ok p) : inv p := by
  rw [pileInit] at h
  split at h
  · cases h
  next t' hv =>
      split at h
      · cases h
      next d hd =>
          have hdn : (dictKeys d).Nodup :=
            validate_pileAux_nodup hd (by simp [dictKeys])
          split at h
          · cases h
          next o ho =>
              cases h
              cases ord with
              | none =>
                  rw [pileValidateOrder] at ho
                  cases ho
                  exact ⟨hdn, hdn, sameKeys_iff.mpr (fun k => Iff.rfl)⟩
              | some v =>
                  rw [pileValidateOrder] at ho
                  by_cases hv0 : v = []
                  · rw [if_pos hv0] at ho
                    cases ho
                    exact ⟨hdn, hdn, sameKeys_iff.mpr (fun k => Iff.rfl)⟩
                  · rw [if_neg hv0] at ho
                    by_cases hvnd : v.Nodup
                    · rw [if_neg (by simpa using hvnd)] at ho
                      by_cases hlen : v.length = (dictKeys d).length
                      · rw [if_neg (by simpa using hlen)] at ho
                        by_cases hany : v.any (fun k => decide (k ∉ dictKeys d))
                        · rw [if_pos hany] at ho; cases ho
                        · rw [if_neg hany] at ho
                          cases ho
                          simp only [List.any_eq_true, decide_eq_true_eq,
                            not_exists, not_and, not_not] at hany
                          refine ⟨hvnd, hdn, ?_, ?_⟩
                          · exact fun k hk => hany k hk
                          · exact subset_len_eq_mem hvnd hdn
                              (fun a ha => hany a ha) hlen
                      · rw [if_pos (by simpa using hlen)] at ho; cases ho
                    · rw [if_pos (by simpa using hvnd)] at ho; cases ho

/-- Construction keeps bindings well-formed. -/
theorem pileInit_wf {items : List Item} {t : Option (List Nat)}
    {ord : Option Order} {s : Bool} {p : Pile}
    (h : pileInit items t ord s = .ok p) : dictWf p.pile_ := by
  rw [pileInit] at h
  split at h
  · cases h
  next t' hv =>
      split at h
      · cases h
      next d hd =>
          split at h
          · cases h
          next o ho =>
              cases h
              exact validate_pileAux_wf hd (by intro kv hkv; simp at hkv)

/-- Construction from already-validated items with a healthy `item_type` and
no explicit order always succeeds, and with the given `strict` flag and
`item_type` recorded unchanged. -/
theorem pileInit_derived_ok {t : Option (List Nat)} {strict : Bool}
    {items : List Item} (hty : itemTypeOkP t)
    (hchk : ∀ it ∈ items, checkItemType t strict it = .ok ()) :
    pileInit items t none strict =
      .ok { pile_ := items.foldl (fun a it => dictSet a it.ln_id it) [],
            item_type := t,
            order :=
              dictKeys (items.foldl (fun a it => dictSet a it.ln_id it) []),
            strict := strict } := by
  rw [pileInit, validate_item_type_ok hty]
  dsimp only
  rw [show validate_pile t strict items =
    .ok (items.foldl (fun a it => dictSet a it.ln_id it) []) from
    validate_pileAux_ok_of_checked [] hchk]
  rfl

/-! ## Invariant preservation, operation by operation -/

theorem mapMErr_length {α β : Type} {f : α → Except Err β} :
    ∀ {as : List α} {bs : List β}, mapMErr f as = .ok bs → bs.length = as.length
  | [], bs, h => by
      rw [mapMErr] at h
      cases h
      rfl
  | a :: as, bs, h => by
      rw [mapMErr] at h
      cases hf : f a with
      | error e => rw [hf] at h; cases h
      | ok b =>
          rw [hf] at h
          cases hm : mapMErr f as with
          | error e => rw [hm] at h; cases h
          | ok bs0 =>
              rw [hm] at h
              cases h
              simp [mapMErr_length hm]

theorem include_inv {p p' : Pile} {items : List Item}
    (hinv : inv p) (h : pileInclude p items = .ok p') : inv p' := by
  obtain ⟨h1, h2, h3⟩ := hinv
  rw [pileInclude] at h
  split at h
  · cases h
  next d hd =>
      cases h
      refine ⟨nodup_progAppend h1, nodup_dictKeys_dictUpdate h2, ?_⟩
      rw [sameKeys_iff]
      intro k
      simp only [mem_progAppend, mem_dictKeys_dictUpdate, List.mem_filter,
        decide_eq_true_eq]
      have := sameKeys_iff.mp h3 k
      tauto

theorem insert_inv {p p' : Pile} {i : Int} {items : List Item}
    (hinv : inv p) (h : pileInsert p i items = .ok p') : inv p' := by
  obtain ⟨h1, h2, h3⟩ := hinv
  rw [pileInsert] at h
  split at h
  · cases h
  next d hd =>
      dsimp only at h
      split at h
      · exact Except.noConfusion h
      next hany =>
        have hnodup : (dictKeys d).Nodup :=
          validate_pileAux_nodup hd (by simp [dictKeys])
        simp only [List.any_eq_true, decide_eq_true_eq, not_exists, not_and] at hany
        split at h
        next ord' hins =>
            cases h
            rw [progInsert] at hins
            rw [if_neg (by
              simp only [List.any_eq_true, decide_eq_true_eq, not_exists, not_and]
              exact hany)] at hins
            cases hins
            have hdecomp : p.order =
                p.order.take (normIdx p.order.length i) ++ [] ++
                  p.order.drop (normIdx p.order.length i) := by
              simp
            have := @splice_inv (p.order.take (normIdx p.order.length i)) []
              (p.order.drop (normIdx p.order.length i)) p.pile_ d (dictKeys d)
              (by rw [← hdecomp]; exact h1) h2 (by rw [← hdecomp]; exact h3)
              hnodup
              (by
                intro a ha hmem
                rw [← hdecomp] at hmem
                exact hany a ha hmem)
              (fun a => Iff.rfl)
            simpa using this
        next hins => exact Except.noConfusion h

theorem setitem_inv {p p' : Pile} {key : PKey} {items : List Item}
    (hinv : inv p)
    (hids : ∀ ks ids, to_list_type_key key = .ok ks →
        mapMErr get_id ks = .ok ids → ids.Nodup)
    (h : pileSetitem p key items = .ok p') : inv p' := by
  obtain ⟨h1, h2, h3⟩ := hinv
  rw [pileSetitem] at h
  split at h
  · cases h
  next d hd =>
      have hdnodup : (dictKeys d).Nodup :=
        validate_pileAux_nodup hd (by simp [dictKeys])
      dsimp only at h
      split at h
      · exact Except.noConfusion h
      next hany =>
        simp only [List.any_eq_true, decide_eq_true_eq, not_exists,
          not_and] at hany
        split at h
        -- integer-index branch
        next i =>
            split at h
            · exact Except.noConfusion h
            next k0 hget =>
                split at h
                · exact Except.noConfusion h
                next ord' hset =>
                    cases h
                    cases hko : dictKeys d with
                    | nil => simp [hko, progSetIndex] at hset
                    | cons k1 ktail =>
                        cases ktail with
                        | cons k2 kt2 => simp [hko, progSetIndex] at hset
                        | nil =>
                            rw [hko, progSetIndex] at hset
                            rw [progGet] at hget
                            set j : Int := pyIndex p.order.length i with hj
                            by_cases hcond :
                                j < 0 ∨ (p.order.length : Int) ≤ j
                            · rw [if_pos hcond] at hset
                              exact Option.noConfusion hset
                            · rw [if_neg hcond] at hset
                              cases hset
                              rw [if_neg (by omega)] at hget
                              have hlt : j.toNat < p.order.length := by
                                rcases List.get?_eq_some.mp hget with ⟨hl, _⟩
                                exact hl
                              have hk0 : p.order.get ⟨j.toNat, hlt⟩ = k0 := by
                                rcases List.get?_eq_some.mp hget with ⟨hl, hv⟩
                                exact hv
                              have hdecomp : p.order =
                                  p.order.take j.toNat ++ [k0] ++
                                    p.order.drop (j.toNat + 1) := by
                                conv_lhs => rw [← List.take_append_drop
                                  j.toNat p.order]
                                rw [List.drop_eq_getElem_cons hlt]
                                simp [← hk0]
                              have hk1mem : k1 ∈ dictKeys d := by
                                rw [hko]
                                exact List.mem_singleton.mpr rfl
                              have hsp := @splice_inv
                                (p.order.take j.toNat) [k0]
                                (p.order.drop (j.toNat + 1)) p.pile_ d [k1]
                                (by rw [← hdecomp]; exact h1) h2
                                (by rw [← hdecomp]; exact h3)
                                (by simp)
                                (by
                                  intro a ha hmem
                                  rw [List.mem_singleton] at ha
                                  rw [← hdecomp] at hmem
                                  exact hany a (ha ▸ hk1mem) hmem)
                                (by
                                  intro a
                                  rw [hko])
                              exact ⟨hsp.1, hsp.2.1, hsp.2.2⟩
        -- slice branch
        next s =>
            cases h
            have hdecomp := progSlice_decomp p.order s
            have hsp := @splice_inv
              (p.order.take (normIdx p.order.length s.start))
              (progGetSlice p.order s)
              (p.order.drop
                (max (normIdx p.order.length s.start)
                  (normIdx p.order.length s.stop)))
              p.pile_ d (dictKeys d)
              (by rw [← hdecomp]; exact h1) h2
              (by rw [← hdecomp]; exact h3)
              hdnodup
              (by
                intro a ha hmem
                rw [← hdecomp] at hmem
                exact hany a ha hmem)
              (fun a => Iff.rfl)
            rw [progSetSlice_eq]
            exact ⟨hsp.1, hsp.2.1, hsp.2.2⟩
        -- validate_order branch
        next hne1 hne2 =>
            split at h
            · exact Except.noConfusion h
            · exact Except.noConfusion h
            next ks hne hks =>
                split at h
                · exact Except.noConfusion h
                next hlen =>
                    split at h
                    · exact Except.noConfusion h
                    next ids hmapm =>
                        split at h
                        · exact Except.noConfusion h
                        next hany2 =>
                            cases h
                            simp only [List.any_eq_true, decide_eq_true_eq,
                              not_exists, not_and, not_not] at hany2
                            have hidnd : ids.Nodup := hids ks ids hks hmapm
                            have hlen2 : ids.length = (dictKeys d).length := by
                              rw [mapMErr_length hmapm]
                              omega
                            have hmemid : ∀ a, a ∈ ids ↔ a ∈ dictKeys d := by
                              intro a
                              exact ⟨fun ha => hany2 a ha,
                                fun ha => subset_len_eq_mem hidnd hdnodup
                                  (fun b hb => hany2 b hb) hlen2 a ha⟩
                            refine ⟨nodup_progAppend h1,
                              nodup_dictKeys_dictUpdate h2, ?_⟩
                            rw [sameKeys_iff]
                            intro a
                            rw [mem_progAppend, mem_dictKeys_dictUpdate,
                              hmemid a]
                            have := sameKeys_iff.mp h3 a
                            tauto

/-- The state `_pop` leaves behind is either the original one (failure before
the loop) or the result of the removal loop over the addressed keys. -/
theorem pilePopRaw_state (p : Pile) (key : PKey) :
    (pilePopRaw p key).2 = p ∨
    ∃ ids, popKeyIds p key = .ok ids ∧
      (pilePopRaw p key).2 =
        { p with order := (popLoop p.order p.pile_ ids).1,
                 pile_ := (popLoop p.order p.pile_ ids).2.1 } := by
  rw [pilePopRaw]
  cases h : popKeyIds p key with
  | error e => exact Or.inl rfl
  | ok ids =>
      refine Or.inr ⟨ids, rfl, ?_⟩
      dsimp only
      split <;> rfl

theorem pilePopRaw_inv {p : Pile} (key : PKey)
    (hinv : inv p) : inv (pilePopRaw p key).2 := by
  obtain ⟨h1, h2, h3⟩ := hinv
  rcases pilePopRaw_state p key with h | ⟨ids, _, h⟩
  · rw [h]; exact ⟨h1, h2, h3⟩
  · rw [h]
    obtain ⟨a1, a2, a3⟩ := popLoop_inv ids h1 h2 h3
    exact ⟨a1, a2, a3⟩

theorem pilePop_state (p : Pile) (key : PKey) (hasDefault : Bool) :
    (pilePop p key hasDefault).2 = (pilePopRaw p key).2 := by
  rw [pilePop]
  cases h : pilePopRaw p key with
  | mk v st =>
      cases v with
      | ok r => simp [h]
      | error e => cases hasDefault <;> simp [h]

theorem pilePop_inv {p : Pile} (key : PKey) (hasDefault : Bool)
    (hinv : inv p) : inv (pilePop p key hasDefault).2 := by
  rw [pilePop_state]
  exact pilePopRaw_inv key hinv

theorem exclude_inv {p : Pile} (items : List Item) (hinv : inv p) :
    inv (pileExclude p items).2 := by
  rw [pileExclude]
  dsimp only
  split
  · exact hinv
  · exact pilePop_inv _ _ hinv

theorem remove_inv {p : Pile} (it : Item) (hinv : inv p) :
    inv (pileRemove p it).2 := by
  rw [pileRemove]
  split
  · exact pilePop_inv _ _ hinv
  · exact hinv

theorem clear_inv (p : Pile) : inv (pileClear p) := by
  refine ⟨List.nodup_nil, List.nodup_nil, ?_⟩
  rw [sameKeys_iff]
  intro k
  simp [pileClear, dictKeys]

theorem include_mem {p p' : Pile} {items : List Item}
    (h : pileInclude p items = .ok p') : ∀ it ∈ items, it.ln_id ∈ p'.order := by
  rw [pileInclude] at h
  split at h
  · cases h
  next d hd =>
      cases h
      intro it hit
      have hmem : it.ln_id ∈ dictKeys d := by
        rw [validate_pileAux_mem hd it.ln_id]
        exact Or.inr (List.mem_map_of_mem Item.ln_id hit)
      rw [mem_progAppend]
      by_cases ho : it.ln_id ∈ p.order
      · exact Or.inl ho
      · exact Or.inr (List.mem_filter.mpr ⟨hmem, by simpa using ho⟩)

/-- `ainclude`'s post-inclusion membership check never fires: the async form
computes exactly what the sync form does. -/
theorem ainclude_eq_include (p : Pile) (items : List Item) :
    pileAinclude p items = pileInclude p items := by
  rw [pileAinclude]
  cases h : pileInclude p items with
  | error e => rfl
  | ok p' =>
      dsimp only
      rw [if_pos ?_]
      simp only [List.all_eq_true, decide_eq_true_eq]
      exact fun it hit => include_mem h it hit

theorem ainclude_inv {p p' : Pile} {items : List Item}
    (hinv : inv p) (h : pileAinclude p items = .ok p') : inv p' := by
  rw [ainclude_eq_include] at h
  exact include_inv hinv h

/-! ## Concrete piles used in the counterexamples and witnesses -/

/-- `Item("ka", type A)`. -/
def exA : Item := ⟨"ka", 0⟩

/-- `Item("kb", type A)`. -/
def exB : Item := ⟨"kb", 0⟩

/-- `Item("k1", type A)`. -/
def ex1 : Item := ⟨"k1", 0⟩

/-- `Item("k2", type A)`. -/
def ex2 : Item := ⟨"k2", 0⟩

/-- A freshly constructed empty pile (`Pile()`). -/
def freshPile : Pile :=
  { pile_ := [], item_type := none, order := [], strict := false }

/-- `Pile([e1])`. -/
def pileOne : Pile :=
  { pile_ := [("k1", ex1)], item_type := none, order := ["k1"],
    strict := false }

/-- `Pile([e1, e2])`. -/
def pileTwo : Pile :=
  { pile_ := [("k1", ex1), ("k2", ex2)], item_type := none,
    order := ["k1", "k2"], strict := false }

/-- The state `set_item(["ka","ka"], [a,b])` leaves behind: `kb` is in the
mapping but not in the order. -/
def c1Broken : Pile :=
  { pile_ := [("ka", exA), ("kb", exB)], item_type := none, order := ["ka"],
    strict := false }

/-! ## Claim C1 -/

/-- C1, counterexample: on a freshly constructed pile, the documented
operation `set_item(key, items)` with the identity-key collection
`["ka", "ka"]` (which repeats a key) and items `[a, b]` succeeds but leaves
`kb` in the `pile_` mapping and not in the order `Progression` — the claimed
bijection between the order's key set and the mapping's key set is broken by
a documented operation that does not raise. -/
theorem claim1_counterexample :
    pileSetitem freshPile (.coll [.kstr "ka", .kstr "ka"]) [exA, exB] =
      .ok c1Broken ∧ ¬ inv c1Broken := by
  constructor
  · decide
  · decide

/-- C1 (amended): construction establishes the bijection between the order's
key set and the mapping's key set, and every documented operation — include,
ainclude, update, exclude, remove, pop (with or without a default), insert,
clear, and set_item whenever its key is an integer, a slice, or resolves to
a duplicate-free key list — preserves it, including when the operation
raises (errors either leave the state unchanged, which the `Except`-valued
operations return as no new state, or thread a state that still satisfies
the invariant, as `pop`'s is). -/
theorem claim1_bijection_invariant (p : Pile) (hinv : inv p) :
    (∀ items t ord s q, pileInit items t ord s = .ok q → inv q) ∧
    (∀ items p', pileInclude p items = .ok p' → inv p') ∧
    (∀ items p', pileUpdate p items = .ok p' → inv p') ∧
    (∀ items p', pileAinclude p items = .ok p' → inv p') ∧
    (∀ items, inv (pileExclude p items).2) ∧
    (∀ it, inv (pileRemove p it).2) ∧
    (∀ key hasDefault, inv (pilePop p key hasDefault).2) ∧
    (∀ i items p', pileInsert p i items = .ok p' → inv p') ∧
    inv (pileClear p) ∧
    (∀ key items p',
      (∀ ks ids, to_list_type_key key = .ok ks →
        mapMErr get_id ks = .ok ids → ids.Nodup) →
      pileSetitem p key items = .ok p' → inv p') := by
  refine ⟨fun items t ord s q h => pileInit_inv h,
    fun items p' h => include_inv hinv h,
    fun items p' h => include_inv hinv h,
    fun items p' h => ainclude_inv hinv h,
    fun items => exclude_inv items hinv,
    fun it => remove_inv it hinv,
    fun key hasDefault => pilePop_inv key hasDefault hinv,
    fun i items p' h => insert_inv hinv h,
    clear_inv p,
    fun key items p' hids h => setitem_inv hinv hids h⟩

/-- C1 witness: the amended invariant theorem applied to the two-element
pile. -/
theorem claim1_witness :
    inv pileTwo ∧
      (∀ key hasDefault, inv (pilePop pileTwo key hasDefault).2) :=
  ⟨by decide, (claim1_bijection_invariant pileTwo (by decide)).2.2.2.2.2.2.1⟩

/-! ## Claim C2 -/

/-- Well-formed bindings serialize to items whose keys recover the dict. -/
theorem map_snd_ln_id {m : Dict} (hwf : dictWf m) :
    (m.map Prod.snd).map Item.ln_id = dictKeys m := by
  rw [List.map_map, dictKeys]
  exact List.map_congr_left (fun kv hkv => (hwf kv hkv).symm)

theorem foldl_dictSet_roundtrip {m : Dict} (hwf : dictWf m)
    (hnd : (dictKeys m).Nodup) :
    (m.map Prod.snd).foldl (fun a it => dictSet a it.ln_id it) [] = m := by
  rw [foldl_dictSet_eq (by simp [dictKeys]) (by rw [map_snd_ln_id hwf]; exact hnd)]
  rw [List.nil_append, List.map_map]
  have : ∀ kv ∈ m, ((fun it => (it.ln_id, it)) ∘ Prod.snd) kv = id kv := by
    intro kv hkv
    have := hwf kv hkv
    simp only [Function.comp_apply, id]
    rw [← this]
  rw [List.map_congr_left this, List.map_id]

/-- The state after `include(e1)` then `insert(0, e2)`: the order
`Progression` is `[k2, k1]` while the mapping's insertion order is
`[k1, k2]`. -/
def c2Pile : Pile :=
  { pile_ := [("k1", ex1), ("k2", ex2)], item_type := none,
    order := ["k2", "k1"], strict := false }

/-- The pile `load` reconstructs from `c2Pile`'s dump. -/
def c2Loaded : Pile :=
  { pile_ := [("k1", ex1), ("k2", ex2)], item_type := none,
    order := ["k1", "k2"], strict := false }

/-- C2, counterexample: build a pile by `include(e1)` then `insert(0, e2)`,
so its order `Progression` is `[k2, k1]`; `dump` serializes `pile_.values()`
— the mapping's insertion order `[e1, e2]`, not the `Progression` order —
and `load` of that dump yields a pile whose traversal order `[k1, k2]`
differs from the original's `[k2, k1]`.  So `load(p.dump())` does not
preserve the traversal order, and serialization does not respect the order
`Progression`. -/
theorem claim2_counterexample :
    pileInclude freshPile [ex1] = .ok pileOne ∧
    pileInsert pileOne 0 [ex2] = .ok c2Pile ∧
    (pileDump c2Pile false).1.pile_dump = [ex1, ex2] ∧
    pileLoad (pileDump c2Pile false).1 = .ok c2Loaded ∧
    c2Loaded.order ≠ c2Pile.order := by
  refine ⟨by decide, by decide, by decide, by decide, by decide⟩

/-- C2 (amended): for every pile with well-formed, duplicate-free bindings,
`load(p.dump())` succeeds and yields a pile with the same elements (the very
same key→element bindings), but ordered by the `pile_` mapping's insertion
order — the serializer emits `[i.to_dict() for i in pile_.values()]` — with
`item_type` dropped (it is not serialized) and `strict` preserved; the
traversal order is preserved exactly when the order `Progression` coincides
with the mapping's insertion order. -/
theorem claim2_roundtrip (p : Pile) (hwf : dictWf p.pile_)
    (hnd : (dictKeys p.pile_).Nodup) :
    (pileDump p false).1.pile_dump = p.pile_.map Prod.snd ∧
    pileLoad (pileDump p false).1 =
      .ok { pile_ := p.pile_, item_type := none,
            order := dictKeys p.pile_, strict := p.strict } ∧
    (p.order = dictKeys p.pile_ →
      ∃ q, pileLoad (pileDump p false).1 = .ok q ∧
        q.order = p.order ∧ q.pile_ = p.pile_) := by
  have hload : pileLoad (pileDump p false).1 =
      .ok { pile_ := p.pile_, item_type := none,
            order := dictKeys p.pile_, strict := p.strict } := by
    rw [pileLoad]
    rw [show (pileDump p false).1 =
      { pile_dump := p.pile_.map Prod.snd, strict := p.strict } from rfl]
    rw [pileInit_derived_ok (t := none) trivial (fun it hit => rfl)]
    rw [foldl_dictSet_roundtrip hwf hnd]
  refine ⟨rfl, hload, fun hord => ⟨_, hload, ?_, rfl⟩⟩
  rw [hord]

/-- C2 witness: the amended round-trip applied to the two-element pile. -/
theorem claim2_witness :
    dictWf pileTwo.pile_ ∧ (dictKeys pileTwo.pile_).Nodup ∧
      (pileDump pileTwo false).1.pile_dump = pileTwo.pile_.map Prod.snd :=
  ⟨by decide, by decide,
    (claim2_roundtrip pileTwo (by decide) (by decide)).1⟩

/-! ## Claim C6 -/

/-- C6: the async and sync forms agree on the state (`ainclude` computes
exactly what `include` does — its extra post-check never fires — and
`adump`'s clear is `dump`'s clear), but `adump` returns `None` (its body
lacks a `return` statement), not the exported dict that `dump` returns and
that its own `-> dict` annotation promises. -/
theorem claim6_adump_returns_none (p : Pile) (items : List Item) (c : Bool) :
    pileAinclude p items = pileInclude p items ∧
    (pileAdump p c).2 = (pileDump p c).2 ∧
    (pileAdump p c).1 = none :=
  ⟨ainclude_eq_include p items, rfl, rfl⟩

/-! ## Claim C9 -/

/-- C9: the decorated methods (`pop`, `clear`, `insert`, `append`, the
`a`-prefixed forms) and the methods whose only mutation is an inner
`@synchronized pop` (`remove`, `exclude`) hold a lock across all their
structural mutations — but `include`, `update` and `__setitem__` mutate both
the order and the mapping with no lock held at all, contradicting both the
spec's lock-discipline sentence and the class docstring's claim that
state-modifying methods are thread-safe. -/
theorem claim9_lock_discipline :
    lockedThroughout popActs = true ∧
    lockedThroughout clearActs = true ∧
    lockedThroughout insertActs = true ∧
    lockedThroughout appendActs = true ∧
    lockedThroughout removeActs = true ∧
    lockedThroughout excludeActs = true ∧
    lockedThroughout asetitemActs = true ∧
    lockedThroughout apopActs = true ∧
    lockedThroughout aincludeActs = true ∧
    lockedThroughout aexcludeActs = true ∧
    lockedThroughout aclearActs = true ∧
    lockedThroughout aupdateActs = true ∧
    lockedThroughout aremoveActs = true ∧
    lockedThroughout includeActs = false ∧
    lockedThroughout updateActs = false ∧
    lockedThroughout setitemActs = false := by
  decide

/-! ## Claim C3 -/

theorem to_list_type_key_error {key : PKey} {e : Err}
    (h : to_list_type_key key = .error e) : e = .lionType := by
  cases key <;> simp [to_list_type_key] at h <;> exact h.symm

theorem mapMErr_get_id_error :
    ∀ {ks : List KElem} {e : Err}, mapMErr get_id ks = .error e →
      e = .lionType
  | [], e, h => by simp [mapMErr] at h
  | k :: ks, e, h => by
      rw [mapMErr] at h
      cases hk : get_id k with
      | error e0 =>
          rw [hk] at h
          cases h
          cases k <;> simp [get_id] at hk <;> exact hk.symm
      | ok b =>
          rw [hk] at h
          cases hm : mapMErr get_id ks with
          | error e1 =>
              rw [hm] at h
              cases h
              exact mapMErr_get_id_error hm
          | ok bs => rw [hm] at h; cases h

/-- C3, counterexample: on `Pile([e1])` the span addressed by the integer key
`0` is exactly `["k1"]`, and the incoming item is `e1` itself, whose key is
in that span — the claim says this reassignment succeeds, but `_setitem`
checks the incoming keys against the whole current order with no exemption
for the overwritten span and raises `ItemExistsError`. -/
theorem claim3_counterexample :
    progGet pileOne.order 0 = some "k1" ∧ ex1.ln_id = "k1" ∧
    pileSetitem pileOne (.idx 0) [ex1] = .error .itemExists := by
  refine ⟨by decide, by decide, by decide⟩

/-- C3 (amended): once the incoming items validate, `set_item` (for every
key shape) fails with the Exists-kind error if and only if some incoming
item's identity key is already present anywhere in the order `Progression` —
the span being overwritten grants no exemption, so reassigning an element
back into its own span raises. -/
theorem claim3_exists_iff (p : Pile) (key : PKey) (items : List Item)
    (d : Dict) (hd : validate_pile p.item_type p.strict items = .ok d) :
    pileSetitem p key items = .error .itemExists ↔
      ∃ a ∈ dictKeys d, a ∈ p.order := by
  constructor
  · intro h
    by_contra hno
    have hno2 : ¬((dictKeys d).any fun i => decide (i ∈ p.order)) = true := by
      simp only [List.any_eq_true, decide_eq_true_eq]
      exact hno
    cases key with
    | idx i =>
        rw [pileSetitem, hd] at h
        dsimp only at h
        rw [if_neg hno2] at h
        split at h
        · simp at h
        · split at h
          · simp at h
          · simp at h
    | slc s =>
        rw [pileSetitem, hd] at h
        dsimp only at h
        rw [if_neg hno2] at h
        simp at h
    | sid s =>
        rw [pileSetitem, hd] at h
        dsimp only at h
        rw [if_neg hno2] at h
        split at h
        next e heq =>
            rw [to_list_type_key_error heq] at h
            simp at h
        · simp at h
        next ks hne heq =>
            split at h
            · simp at h
            next hlen =>
                split at h
                next e2 hm =>
                    rw [mapMErr_get_id_error hm] at h
                    simp at h
                next ids hm =>
                    split at h
                    · simp at h
                    · simp at h
    | pitem it =>
        rw [pileSetitem, hd] at h
        dsimp only at h
        rw [if_neg hno2] at h
        split at h
        next e heq =>
            rw [to_list_type_key_error heq] at h
            simp at h
        · simp at h
        next ks hne heq =>
            split at h
            · simp at h
            next hlen =>
                split at h
                next e2 hm =>
                    rw [mapMErr_get_id_error hm] at h
                    simp at h
                next ids hm =>
                    split at h
                    · simp at h
                    · simp at h
    | coll l =>
        rw [pileSetitem, hd] at h
        dsimp only at h
        rw [if_neg hno2] at h
        split at h
        next e heq =>
            rw [to_list_type_key_error heq] at h
            simp at h
        · simp at h
        next ks hne heq =>
            split at h
            · simp at h
            next hlen =>
                split at h
                next e2 hm =>
                    rw [mapMErr_get_id_error hm] at h
                    simp at h
                next ids hm =>
                    split at h
                    · simp at h
                    · simp at h
    | kbad =>
        rw [pileSetitem, hd] at h
        dsimp only at h
        rw [if_neg hno2] at h
        split at h
        next e heq =>
            rw [to_list_type_key_error heq] at h
            simp at h
        · simp at h
        next ks hne heq =>
            split at h
            · simp at h
            next hlen =>
                split at h
                next e2 hm =>
                    rw [mapMErr_get_id_error hm] at h
                    simp at h
                next ids hm =>
                    split at h
                    · simp at h
                    · simp at h
  · rintro ⟨a, ha, hmem⟩
    rw [pileSetitem, hd]
    dsimp only
    rw [if_pos (by
      simp only [List.any_eq_true, decide_eq_true_eq]
      exact ⟨a, ha, hmem⟩)]

/-- C3 witness: the amended equivalence applied to the reassignment of `e1`
into its own span. -/
theorem claim3_witness :
    validate_pile pileOne.item_type pileOne.strict [ex1] =
      .ok [("k1", ex1)] ∧
    (pileSetitem pileOne (.idx 0) [ex1] = .error .itemExists ↔
      ∃ a ∈ dictKeys [("k1", ex1)], a ∈ pileOne.order) :=
  ⟨by decide, claim3_exists_iff pileOne (.idx 0) [ex1] _ (by decide)⟩

/-! ## Claim C4 -/

theorem progGet_mem {ord : Order} {i : Int} {k : LionId}
    (h : progGet ord i = some k) : k ∈ ord := by
  rw [progGet] at h
  split at h
  · exact Option.noConfusion h
  · exact List.get?_mem h

theorem progGetSlice_sublist (ord : Order) (s : Sl) :
    (progGetSlice ord s).Sublist ord := by
  rw [progGetSlice]
  exact (List.take_sublist _ _).trans (List.drop_sublist _ _)

/-- The state `pop` leaves on the two paths matches `pilePopRaw`'s. -/
theorem claim4_helper_default (p : Pile) (key : PKey) (e : Err)
    (h : (pilePopRaw p key).1 = .error e) :
    (pilePop p key false).1 = .error .itemNotFound ∧
    (pilePop p key true).1 = .ok .dflt ∧
    (pilePop p key false).2 = (pilePopRaw p key).2 ∧
    (pilePop p key true).2 = (pilePopRaw p key).2 := by
  cases hp : pilePopRaw p key with
  | mk v st =>
      rw [hp] at h
      dsimp only at h
      subst h
      refine ⟨?_, ?_, ?_, ?_⟩ <;> rw [pilePop, hp] <;> rfl

/-- C4, counterexample: on `Pile([e1, e2])`, `pop(["k1", "kx"], default)` —
a collection key in which `kx` is absent — removes `e1` from both structures,
then fails on `kx` and returns the default, leaving a state different from
the original: `pop` is not atomic on failure. -/
theorem claim4_counterexample :
    pilePop pileTwo (.coll [.kstr "k1", .kstr "kx"]) true =
      (.ok .dflt,
        { pile_ := [("k2", ex2)], item_type := none, order := ["k2"],
          strict := false }) ∧
    ({ pile_ := [("k2", ex2)], item_type := none, order := ["k2"],
        strict := false } : Pile) ≠ pileTwo := by
  refine ⟨by decide, by decide⟩

/-- C4 (amended): on a healthy pile, `pop` with an integer or slice key is
atomic on failure — whenever it raises (or would return a default), the
order and mapping are exactly as before the call; `pop` with a collection
key is not atomic (see the counterexample), but every failure still leaves
the bijection invariant intact, and the miss policy is as claimed: a raw
failure surfaces as `ItemNotFoundError` without a default and as the default
with one, with the same post-state either way. -/
theorem claim4_pop_atomic (p : Pile) (hg : good p) :
    (∀ i e, (pilePopRaw p (.idx i)).1 = .error e →
      (pilePopRaw p (.idx i)).2 = p) ∧
    (∀ s e, (pilePopRaw p (.slc s)).1 = .error e →
      (pilePopRaw p (.slc s)).2 = p) ∧
    (∀ key hasDefault, inv (pilePop p key hasDefault).2) ∧
    (∀ key e, (pilePopRaw p key).1 = .error e →
      (pilePop p key false).1 = .error .itemNotFound ∧
      (pilePop p key true).1 = .ok .dflt ∧
      (pilePop p key false).2 = (pilePopRaw p key).2 ∧
      (pilePop p key true).2 = (pilePopRaw p key).2) := by
  obtain ⟨hpinv, hwf, hgt⟩ := hg
  refine ⟨?_, ?_, fun key hasD => pilePop_inv key hasD hpinv, ?_⟩
  · intro i e h
    cases hpg : progGet p.order i with
    | none => rw [pilePopRaw, popKeyIds, hpg]
    | some k =>
        exfalso
        have hmem : k ∈ p.order := progGet_mem hpg
        have hok := popLoop_ok [k] hpinv.1 hpinv.2.1 hpinv.2.2
          (by simp) (by simpa using hmem)
        rw [pilePopRaw, popKeyIds, hpg] at h
        dsimp only at h
        rw [if_pos hok] at h
        have hlen := popLoop_length [k] hok
        rcases List.length_eq_one.mp hlen with ⟨it, hit⟩
        rw [hit] at h
        simp [popPackage] at h
  · intro s e h
    have hsub := progGetSlice_sublist p.order s
    have hok := popLoop_ok (progGetSlice p.order s) hpinv.1 hpinv.2.1 hpinv.2.2
      (hsub.nodup hpinv.1) (fun k hk => hsub.subset hk)
    have hlen := popLoop_length (progGetSlice p.order s) hok
    rw [pilePopRaw, popKeyIds] at h ⊢
    dsimp only at h ⊢
    rw [if_pos hok] at h ⊢
    cases hitems :
        (popLoop p.order p.pile_ (progGetSlice p.order s)).2.2.1 with
    | nil =>
        have hidsnil : progGetSlice p.order s = [] := by
          rw [hitems] at hlen
          exact List.length_eq_zero.mp hlen.symm
        rw [hidsnil]
        rfl
    | cons it rest =>
        exfalso
        cases rest with
        | nil =>
            rw [hitems] at h
            simp [popPackage] at h
        | cons it2 rest2 =>
            have hchk : ∀ x ∈ it :: it2 :: rest2,
                checkItemType p.item_type false x = .ok () := by
              intro x hx
              rw [← hitems] at hx
              obtain ⟨k, hk⟩ := popLoop_items _ x hx
              exact hgt.2 (k, x) hk
            rw [hitems] at h
            rw [show popPackage p (.slc s) (progGetSlice p.order s)
                  (it :: it2 :: rest2) =
                (match pileInit (it :: it2 :: rest2) p.item_type none false
                 with
                 | .ok q => .ok (.pile q)
                 | .error e => .error e) from rfl] at h
            rw [pileInit_derived_ok hgt.1 hchk] at h
            simp at h
  · exact fun key e h => claim4_helper_default p key e h

/-- C4 witness: the amended atomicity applied to `Pile([e1, e2])` and the
out-of-range index `5`. -/
theorem claim4_witness :
    good pileTwo ∧ (pilePopRaw pileTwo (.idx 5)).1 = .error .itemNotFound ∧
      (pilePopRaw pileTwo (.idx 5)).2 = pileTwo :=
  ⟨by decide, by decide,
    (claim4_pop_atomic pileTwo (by decide)).1 5 .itemNotFound (by decide)⟩

/-! ## Claim C5 -/

theorem iterPile_ok :
    ∀ {snap : Order} {d : Dict},
      (∀ k ∈ snap, (dictLookup d k).isSome) →
      ∃ l, iterPile snap d = .ok l ∧ l.length = snap.length
  | [], d, _ => ⟨[], rfl, rfl⟩
  | k :: snap, d, h => by
      have hk := h k (List.mem_cons_self _ _)
      cases hl : dictLookup d k with
      | none => rw [hl] at hk; simp at hk
      | some it =>
          obtain ⟨l, hl2, hlen⟩ :=
            iterPile_ok (fun a ha => h a (List.mem_cons_of_mem _ ha))
          rw [iterPile] at hl2
          refine ⟨it :: l, ?_, by simp [hlen]⟩
          rw [iterPile, mapMErr, hl]
          dsimp only
          rw [hl2]

theorem iterPile_error :
    ∀ {snap : Order} {d : Dict} {k : LionId},
      k ∈ snap → dictLookup d k = none → iterPile snap d = .error .keyErr
  | [], d, k, hmem, _ => by simp at hmem
  | k0 :: snap, d, k, hmem, hnone => by
      rw [iterPile, mapMErr]
      cases hl : dictLookup d k0 with
      | none => rfl
      | some it =>
          dsimp only
          rcases List.mem_cons.mp hmem with h1 | h1
          · subst h1
            rw [hl] at hnone
            exact Option.noConfusion hnone
          · have hrec := iterPile_error h1 hnone
            rw [iterPile] at hrec
            rw [hrec]

/-- C5, counterexample: take the iteration snapshot `["k1", "k2"]` of
`Pile([e1, e2])`, then remove `e2` (`pop("k2")`) before the iterator reaches
it; continuing the iteration looks `"k2"` up in the mutated mapping and
raises `KeyError` — it does not skip the removed element as the claim
requires. -/
theorem claim5_counterexample :
    (pilePop pileTwo (.sid "k2") false).2.pile_ = [("k1", ex1)] ∧
    iterPile pileTwo.order (pilePop pileTwo (.sid "k2") false).2.pile_ =
      .error .keyErr := by
  refine ⟨by decide, by decide⟩

/-- C5 (amended): iteration over the snapshot yields exactly one element per
snapshot key — never a duplicate and never a raise — as long as every
snapshotted key is still in the mapping; but if any snapshotted key has been
removed before being visited, continuing the iteration raises the key-lookup
error instead of skipping the removed element. -/
theorem claim5_snapshot_iteration (snap : Order) (d : Dict) :
    ((∀ k ∈ snap, (dictLookup d k).isSome) →
      ∃ l, iterPile snap d = .ok l ∧ l.length = snap.length) ∧
    (∀ k ∈ snap, dictLookup d k = none → iterPile snap d = .error .keyErr) :=
  ⟨fun h => iterPile_ok h, fun k hk hnone => iterPile_error hk hnone⟩

/-- C5 witness: the amended snapshot-iteration behavior at the concrete
snapshot `["k1", "k2"]` and the mapping with `"k2"` removed. -/
theorem claim5_witness :
    (∀ k ∈ (["k1", "k2"] : Order), dictLookup [("k1", ex1)] k = none →
      iterPile ["k1", "k2"] [("k1", ex1)] = .error .keyErr) ∧
    ("k2" ∈ (["k1", "k2"] : Order) ∧
      dictLookup [("k1", ex1)] "k2" = none) :=
  ⟨(claim5_snapshot_iteration ["k1", "k2"] [("k1", ex1)]).2,
    by decide, by decide⟩

/-! ## Claim C8 -/

/-- C8, counterexample: a key of non-conforming shape (a float, say) passed
to the documented `get(key)` with no default fails with the NotFound-kind
`ItemNotFoundError`, not a TypeMismatch-kind error — `_get` wraps
`validate_order`'s `LionTypeError` in a `try` and converts every failure to
`ItemNotFoundError`. -/
theorem claim8_counterexample :
    pileGet pileTwo .kbad false = .error .itemNotFound ∧
    Err.itemNotFound ≠ Err.lionType := by
  refine ⟨by decide, by decide⟩

/-- C8 (amended): for a key argument of non-conforming shape, `__getitem__`
and `set_item` do fail with the TypeMismatch-kind `LionTypeError` (the
`to_list_type` call sits outside their `try` blocks), but the documented
`get` and `pop` convert the shape error into their miss policy: with no
default they fail with the NotFound-kind error, with a default they return
it — and `pop` leaves the state untouched. -/
theorem claim8_bad_key_shape (p : Pile) (items : List Item) (d : Dict)
    (hd : validate_pile p.item_type p.strict items = .ok d)
    (hfresh : ¬((dictKeys d).any fun i => decide (i ∈ p.order)) = true) :
    pileGetitem p .kbad = .error .lionType ∧
    pileSetitem p .kbad items = .error .lionType ∧
    pileGet p .kbad false = .error .itemNotFound ∧
    pileGet p .kbad true = .ok .dflt ∧
    pilePop p .kbad false = (.error .itemNotFound, p) ∧
    pilePop p .kbad true = (.ok .dflt, p) := by
  refine ⟨rfl, ?_, rfl, rfl, rfl, rfl⟩
  rw [pileSetitem, hd]
  dsimp only
  rw [if_neg hfresh]
  rfl

/-- C8 witness: the amended behavior at `Pile([e1, e2])` with fresh incoming
item `a`. -/
theorem claim8_witness :
    validate_pile pileTwo.item_type pileTwo.strict [exA] =
      .ok [("ka", exA)] ∧
    pileGetitem pileTwo .kbad = .error .lionType :=
  ⟨by decide,
    (claim8_bad_key_shape pileTwo [exA] [("ka", exA)] (by decide)
      (by decide)).1⟩

/-! ## Claim C10 -/

theorem pileInit_strict_itemtype {items : List Item} {t : Option (List Nat)}
    {ord : Option Order} {s : Bool} {q : Pile} (hty : itemTypeOkP t)
    (h : pileInit items t ord s = .ok q) :
    q.strict = s ∧ q.item_type = t := by
  rw [pileInit, validate_item_type_ok hty] at h
  dsimp only at h
  split at h
  · cases h
  next d hd =>
      split at h
      · cases h
      next o ho =>
          cases h
          exact ⟨rfl, rfl⟩

theorem include_preserves {r q : Pile} {items : List Item}
    (h : pileInclude r items = .ok q) :
    q.strict = r.strict ∧ q.item_type = r.item_type := by
  rw [pileInclude] at h
  split at h
  · cases h
  next d hd =>
      cases h
      exact ⟨rfl, rfl⟩

theorem popPackage_pile {p : Pile} {key : PKey} {ids : List LionId}
    {items : List Item} {r : Pile} (hty : itemTypeOkP p.item_type)
    (h : popPackage p key ids items = .ok (.pile r)) :
    r.strict = false ∧ r.item_type = p.item_type := by
  cases items with
  | nil => cases key <;> simp [popPackage] at h
  | cons it rest =>
      cases rest with
      | nil => cases key <;> simp [popPackage] at h
      | cons it2 rest2 =>
          cases key with
          | idx i => simp [popPackage] at h
          | slc s =>
              rw [show popPackage p (.slc s) ids (it :: it2 :: rest2) =
                  (match pileInit (it :: it2 :: rest2) p.item_type none false
                   with
                   | .ok q => .ok (.pile q)
                   | .error e => .error e) from rfl] at h
              split at h
              next q hq =>
                  cases h
                  exact pileInit_strict_itemtype hty hq
              · simp at h
          | sid k =>
              rw [show popPackage p (.sid k) ids (it :: it2 :: rest2) =
                  (match pileInit (it :: it2 :: rest2) p.item_type (some ids)
                     false with
                   | .ok q => .ok (.pile q)
                   | .error e => .error e) from rfl] at h
              split at h
              next q hq =>
                  cases h
                  exact pileInit_strict_itemtype hty hq
              · simp at h
          | pitem it0 =>
              rw [show popPackage p (.pitem it0) ids (it :: it2 :: rest2) =
                  (match pileInit (it :: it2 :: rest2) p.item_type (some ids)
                     false with
                   | .ok q => .ok (.pile q)
                   | .error e => .error e) from rfl] at h
              split at h
              next q hq =>
                  cases h
                  exact pileInit_strict_itemtype hty hq
              · simp at h
          | coll l =>
              rw [show popPackage p (.coll l) ids (it :: it2 :: rest2) =
                  (match pileInit (it :: it2 :: rest2) p.item_type (some ids)
                     false with
                   | .ok q => .ok (.pile q)
                   | .error e => .error e) from rfl] at h
              split at h
              next q hq =>
                  cases h
                  exact pileInit_strict_itemtype hty hq
              · simp at h
          | kbad =>
              rw [show popPackage p .kbad ids (it :: it2 :: rest2) =
                  (match pileInit (it :: it2 :: rest2) p.item_type (some ids)
                     false with
                   | .ok q => .ok (.pile q)
                   | .error e => .error e) from rfl] at h
              split at h
              next q hq =>
                  cases h
                  exact pileInit_strict_itemtype hty hq
              · simp at h

theorem pilePop_pile {p : Pile} {key : PKey} {hasD : Bool} {r : Pile}
    (hty : itemTypeOkP p.item_type)
    (h : (pilePop p key hasD).1 = .ok (.pile r)) :
    r.strict = false ∧ r.item_type = p.item_type := by
  rw [pilePop] at h
  cases hraw : pilePopRaw p key with
  | mk v st2 =>
      rw [hraw] at h
      cases v with
      | ok v0 =>
          dsimp only at h
          cases h
          rw [pilePopRaw] at hraw
          cases hk : popKeyIds p key with
          | error e => rw [hk] at hraw; simp at hraw
          | ok ids =>
              rw [hk] at hraw
              dsimp only at hraw
              split at hraw
              next hloop =>
                  have := congrArg Prod.fst hraw
                  dsimp only at this
                  exact popPackage_pile hty this
              · simp at hraw
      | error e =>
          dsimp only at h
          cases hasD <;> simp at h

/-- C10: derived piles do not inherit strict mode: whenever a parent pile
(in particular one constructed with `strict=True`) hands back a new `Pile` —
from `__getitem__` with a slice, from `pop` resolving to several elements,
or from the `+`/`-` operators — the new pile carries the parent's
`item_type` but `strict=False` (none of those constructor calls passes
`strict`), so an instance of a subtype that the strict parent's validation
rejects is accepted by the derived pile's validation. -/
theorem claim10_derived_not_strict (p : Pile) (hg : good p)
    (hstrict : p.strict = true) :
    (∀ s q, pileGetitem p (.slc s) = .ok (.pile q) →
      q.strict = false ∧ q.item_type = p.item_type) ∧
    (∀ key hasD r, (pilePop p key hasD).1 = .ok (.pile r) →
      r.strict = false ∧ r.item_type = p.item_type) ∧
    (∀ other q, pileAdd p other = .ok q →
      q.strict = false ∧ q.item_type = p.item_type) ∧
    (∀ key q, pileSub p key = .ok q →
      q.strict = false ∧ q.item_type = p.item_type) ∧
    (∀ ts it, p.item_type = some ts → it.ty ∉ ts →
      (ts.any fun t2 => issubclass it.ty t2) = true →
      validate_pile p.item_type p.strict [it] = .error .lionType ∧
      validate_pile p.item_type false [it] = .ok [(it.ln_id, it)]) := by
  have hty : itemTypeOkP p.item_type := hg.2.2.1
  refine ⟨?_, ?_, ?_, ?_, ?_⟩
  · intro s q h
    rw [pileGetitem] at h
    split at h
    next items hm =>
        split at h
        next q2 hq =>
            cases h
            exact pileInit_strict_itemtype hty hq
        · simp at h
    · simp at h
  · exact fun key hasD r h => pilePop_pile hty h
  · intro other q h
    rw [pileAdd] at h
    split at h
    · cases h
    next vals hv =>
        split at h
        · cases h
        next r hr =>
            obtain ⟨hs, ht⟩ := pileInit_strict_itemtype hty hr
            obtain ⟨hs2, ht2⟩ := include_preserves h
            exact ⟨hs2.trans hs, ht2.trans ht⟩
  · intro key q h
    rw [pileSub] at h
    split at h
    · cases h
    next vals hv =>
        split at h
        · cases h
        next r hr =>
            obtain ⟨hs, ht⟩ := pileInit_strict_itemtype hty hr
            split at h
            next v hpop =>
                cases h
                rw [pilePop_state]
                rcases pilePopRaw_state r key with h2 | ⟨ids, _, h2⟩ <;>
                  rw [h2] <;> exact ⟨hs, ht⟩
            next e hpop => cases h
  · intro ts it hts htn hsub
    have hchk1 : checkItemType p.item_type p.strict it = .error .lionType := by
      rw [hts, hstrict, checkItemType]
      rw [if_pos rfl, if_neg (by simpa using htn)]
    have hchk2 : checkItemType p.item_type false it = .ok () := by
      rw [hts, checkItemType]
      rw [if_neg (by simp), if_pos hsub]
    constructor
    · rw [validate_pile, validate_pileAux, hchk1]
    · rw [validate_pile, validate_pileAux, hchk2, validate_pileAux]
      rfl

/-- The strict parent used in the C10 witness: `Pile([e1, e2],
item_type={A}, strict=True)`. -/
def c10Parent : Pile :=
  { pile_ := [("k1", ex1), ("k2", ex2)], item_type := some [0],
    order := ["k1", "k2"], strict := true }

/-- C10 witness: the theorem applied to the strict parent, with the slice
`[0:2]` producing a derived pile that indeed has `strict=False` and the
parent's `item_type`. -/
theorem claim10_witness :
    good c10Parent ∧ c10Parent.strict = true ∧
    pileGetitem c10Parent (.slc ⟨0, 2⟩) =
      .ok (.pile { pile_ := [("k1", ex1), ("k2", ex2)],
                   item_type := some [0], order := ["k1", "k2"],
                   strict := false }) ∧
    (({ pile_ := [("k1", ex1), ("k2", ex2)], item_type := some [0],
        order := ["k1", "k2"], strict := false } : Pile).strict = false ∧
      ({ pile_ := [("k1", ex1), ("k2", ex2)], item_type := some [0],
         order := ["k1", "k2"], strict := false } : Pile).item_type =
        c10Parent.item_type) :=
  ⟨by decide, by decide, by decide,
    (claim10_derived_not_strict c10Parent (by decide) (by decide)).1
      ⟨0, 2⟩ _ (by decide)⟩

/-! ## Claim C7 -/

theorem pileGetitem_idx_shape {p : Pile} {i : Int} {v : RVal}
    (h : pileGetitem p (.idx i) = .ok v) : ∃ it, v = .one it := by
  rw [pileGetitem] at h
  split at h
  next k hk =>
      split at h
      next it hl =>
          cases h
          exact ⟨it, rfl⟩
      · simp at h
  · simp at h

theorem pileGetitem_sid_shape {p : Pile} {k : String} {v : RVal}
    (h : pileGetitem p (.sid k) = .ok v) : ∃ it, v = .one it := by
  rw [pileGetitem] at h
  split at h
  next it hl =>
      cases h
      exact ⟨it, rfl⟩
  · simp at h

theorem mapMOpt_lookup {d : Dict} (hwf : dictWf d) :
    ∀ {ids : List LionId}, (∀ k ∈ ids, (dictLookup d k).isSome) →
      ∃ items, mapMOpt (dictLookup d) ids = some items ∧
        items.map Item.ln_id = ids ∧ ∀ it ∈ items, ∃ k, (k, it) ∈ d
  | [], _ => ⟨[], rfl, rfl, by simp⟩
  | k :: ids, h => by
      have hk := h k (List.mem_cons_self _ _)
      cases hl : dictLookup d k with
      | none => rw [hl] at hk; simp at hk
      | some it =>
          obtain ⟨items, h1, h2, h3⟩ :=
            mapMOpt_lookup hwf (fun a ha => h a (List.mem_cons_of_mem _ ha))
          refine ⟨it :: items, ?_, ?_, ?_⟩
          · rw [mapMOpt, hl]
            dsimp only
            rw [h1]
          · have hkit : it.ln_id = k := (hwf _ (dictLookup_mem hl)).symm
            simp [h2, hkit]
          · intro x hx
            rcases List.mem_cons.mp hx with h4 | h4
            · exact ⟨k, h4 ▸ dictLookup_mem hl⟩
            · exact h3 x h4

theorem getLoop_sids {p : Pile} (hwf : dictWf p.pile_) :
    ∀ {ids : List LionId}, (∀ k ∈ ids, (dictLookup p.pile_ k).isSome) →
      ∃ items, getLoop p (ids.map PKey.sid) = .ok items ∧
        items.map Item.ln_id = ids ∧ ∀ it ∈ items, ∃ k, (k, it) ∈ p.pile_
  | [], _ => ⟨[], rfl, rfl, by simp⟩
  | k :: ids, h => by
      have hk := h k (List.mem_cons_self _ _)
      cases hl : dictLookup p.pile_ k with
      | none => rw [hl] at hk; simp at hk
      | some it =>
          obtain ⟨items, h1, h2, h3⟩ :=
            getLoop_sids hwf (fun a ha => h a (List.mem_cons_of_mem _ ha))
          have hone : pileGetitem p (.sid k) = .ok (.one it) := by
            rw [pileGetitem, hl]
          refine ⟨it :: items, ?_, ?_, ?_⟩
          · rw [getLoop, List.map_cons, mapMErr, hone]
            dsimp only
            rw [getLoop] at h1
            rw [h1]
          · have hkit : it.ln_id = k := (hwf _ (dictLookup_mem hl)).symm
            simp [h2, hkit]
          · intro x hx
            rcases List.mem_cons.mp hx with h4 | h4
            · exact ⟨k, h4 ▸ dictLookup_mem hl⟩
            · exact h3 x h4

theorem mapMErr_get_id_kstr :
    ∀ (ids : List LionId), mapMErr get_id (ids.map KElem.kstr) = .ok ids
  | [] => rfl
  | k :: ids => by
      rw [List.map_cons, mapMErr]
      dsimp only [get_id]
      rw [mapMErr_get_id_kstr ids]

theorem pileInit_concrete {t : Option (List Nat)} {strict : Bool}
    {items : List Item} (hty : itemTypeOkP t)
    (hchk : ∀ it ∈ items, checkItemType t strict it = .ok ())
    (hnd : (items.map Item.ln_id).Nodup) :
    pileInit items t none strict =
      .ok { pile_ := items.map (fun it => (it.ln_id, it)), item_type := t,
            order := items.map Item.ln_id, strict := strict } := by
  rw [pileInit_derived_ok hty hchk]
  rw [foldl_dictSet_eq (by simp [dictKeys]) hnd]
  rw [List.nil_append]
  have : dictKeys (items.map fun it => (it.ln_id, it)) =
      items.map Item.ln_id := by
    rw [dictKeys, List.map_map]
    rfl
  rw [this]

/-- C7, counterexample: on `Pile([e1, e2])` the documented
`get(["k1"], no default)` — a collection key resolving to exactly one
element — returns the element `e1` itself, not a new Pile, contrary to the
claim that collection keys always produce a new Pile. -/
theorem claim7_counterexample :
    pileGet pileTwo (.coll [.kstr "k1"]) false = .ok (.one ex1) ∧
    (∀ q : Pile, RVal.one ex1 ≠ RVal.pile q) := by
  refine ⟨by decide, fun q => by simp⟩

/-- C7 (amended): on a healthy pile, `get_item` returns the single element
itself for an integer index or identity-key string (or the default on a
miss with a default supplied); a slice key always yields a new Pile carrying
the addressed span in order (with the parent's `item_type`, `strict=False`);
a collection key yields a new Pile preserving relative order only when it
resolves to two or more elements — a collection resolving to exactly one
element returns that element itself, not a Pile; on a miss, the supplied
default is returned, and with no default the failure is the NotFound-kind
error. -/
theorem claim7_get_shapes (p : Pile) (hg : good p) :
    (∀ i hasD v, pileGet p (.idx i) hasD = .ok v →
      (∃ it, v = RVal.one it) ∨ (hasD = true ∧ v = RVal.dflt)) ∧
    (∀ k hasD v, pileGet p (.sid k) hasD = .ok v →
      (∃ it, v = RVal.one it) ∨ (hasD = true ∧ v = RVal.dflt)) ∧
    (∀ s hasD, ∃ q, pileGet p (.slc s) hasD = .ok (.pile q) ∧
      q.order = progGetSlice p.order s ∧ q.item_type = p.item_type ∧
      q.strict = false) ∧
    (∀ k0 it hasD, dictLookup p.pile_ k0 = some it →
      pileGet p (.coll [.kstr k0]) hasD = .ok (.one it)) ∧
    (∀ ids hasD, 2 ≤ ids.length → ids.Nodup →
      (∀ k ∈ ids, (dictLookup p.pile_ k).isSome) →
      ∃ q, pileGet p (.coll (ids.map KElem.kstr)) hasD = .ok (.pile q) ∧
        q.order = ids ∧ q.item_type = p.item_type ∧ q.strict = false) ∧
    (∀ key e, pileGet p key false = .error e →
      e = .itemNotFound ∧ pileGet p key true = .ok .dflt) := by
  obtain ⟨hpinv, hwf, hgt⟩ := hg
  refine ⟨?_, ?_, ?_, ?_, ?_, ?_⟩
  · intro i hasD v h
    rw [pileGet] at h
    split at h
    next v0 hx =>
        cases h
        exact Or.inl (pileGetitem_idx_shape hx)
    next e hx =>
        cases hasD
        · simp at h
        · have h2 : Except.ok RVal.dflt = Except.ok v := h
          cases h2
          exact Or.inr ⟨rfl, rfl⟩
  · intro k hasD v h
    have hred : pileGet p (.sid k) hasD =
        (match (match getLoop p [PKey.sid k] with
                | .error e => Except.error (ε := Err) (α := RVal) e
                | .ok [] => Except.error Err.itemNotFound
                | .ok [it0] => Except.ok (RVal.one it0)
                | .ok items =>
                    match pileInit items p.item_type none false with
                    | .ok q => Except.ok (RVal.pile q)
                    | .error e => Except.error e) with
         | .ok v => Except.ok v
         | .error _ =>
             if hasD then Except.ok RVal.dflt
             else Except.error Err.itemNotFound) := rfl
    rw [hred] at h
    cases hl : dictLookup p.pile_ k with
    | some it =>
        have hone : pileGetitem p (.sid k) = .ok (.one it) := by
          rw [pileGetitem, hl]
        have hloop : getLoop p [PKey.sid k] = .ok [it] := by
          rw [getLoop, mapMErr, hone]
          rfl
        rw [hloop] at h
        have h2 : Except.ok (RVal.one it) = Except.ok v := h
        cases h2
        exact Or.inl ⟨it, rfl⟩
    | none =>
        have hnone : pileGetitem p (.sid k) = .error .itemNotFound := by
          rw [pileGetitem, hl]
        have hloop : getLoop p [PKey.sid k] = .error .itemNotFound := by
          rw [getLoop, mapMErr, hnone]
        rw [hloop] at h
        cases hasD
        · exact absurd
            (show Except.error Err.itemNotFound = Except.ok v from h)
            (by simp)
        · have h2 : Except.ok RVal.dflt = Except.ok v := h
          cases h2
          exact Or.inr ⟨rfl, rfl⟩
  · intro s hasD
    have hids_mem : ∀ k ∈ progGetSlice p.order s,
        (dictLookup p.pile_ k).isSome := by
      intro k hk
      rw [dictLookup_isSome_iff]
      exact (sameKeys_iff.mp hpinv.2.2 k).mp
        ((progGetSlice_sublist p.order s).subset hk)
    obtain ⟨items, h1, h2, h3⟩ := mapMOpt_lookup hwf hids_mem
    have hnd : (items.map Item.ln_id).Nodup := by
      rw [h2]
      exact (progGetSlice_sublist p.order s).nodup hpinv.1
    have hchk : ∀ it ∈ items, checkItemType p.item_type false it = .ok () := by
      intro it hit
      obtain ⟨k, hk⟩ := h3 it hit
      exact hgt.2 (k, it) hk
    refine ⟨{ pile_ := items.map (fun it => (it.ln_id, it)),
              item_type := p.item_type,
              order := items.map Item.ln_id, strict := false },
      ?_, by rw [h2], rfl, rfl⟩
    rw [pileGet, pileGetitem, h1]
    dsimp only
    rw [pileInit_concrete hgt.1 hchk hnd]
  · intro k0 it hasD hl
    have hone : pileGetitem p (.sid k0) = .ok (.one it) := by
      rw [pileGetitem, hl]
    have hloop : getLoop p [PKey.sid k0] = .ok [it] := by
      rw [getLoop, mapMErr, hone]
      rfl
    have hred : pileGet p (.coll [.kstr k0]) hasD =
        (match (match getLoop p [PKey.sid k0] with
                | .error e => Except.error (ε := Err) (α := RVal) e
                | .ok [] => Except.error Err.itemNotFound
                | .ok [it0] => Except.ok (RVal.one it0)
                | .ok items =>
                    match pileInit items p.item_type none false with
                    | .ok q => Except.ok (RVal.pile q)
                    | .error e => Except.error e) with
         | .ok v => Except.ok v
         | .error _ =>
             if hasD then Except.ok RVal.dflt
             else Except.error Err.itemNotFound) := rfl
    rw [hred, hloop]
  · intro ids hasD hlen hnd hmem
    obtain ⟨k1, ids1, rfl⟩ :
        ∃ k1 ids1, ids = k1 :: ids1 := by
      cases ids with
      | nil => simp at hlen
      | cons a t => exact ⟨a, t, rfl⟩
    obtain ⟨k2, ids2, rfl⟩ :
        ∃ k2 ids2, ids1 = k2 :: ids2 := by
      cases ids1 with
      | nil => simp at hlen
      | cons a t => exact ⟨a, t, rfl⟩
    obtain ⟨items, h1, h2, h3⟩ := getLoop_sids hwf hmem
    have hchk : ∀ it ∈ items, checkItemType p.item_type false it = .ok () := by
      intro it hit
      obtain ⟨k, hk⟩ := h3 it hit
      exact hgt.2 (k, it) hk
    have hndi : (items.map Item.ln_id).Nodup := by rw [h2]; exact hnd
    obtain ⟨i1, its1, rfl⟩ : ∃ i1 its1, items = i1 :: its1 := by
      cases items with
      | nil => simp at h2
      | cons a t => exact ⟨a, t, rfl⟩
    obtain ⟨i2, its2, rfl⟩ : ∃ i2 its2, its1 = i2 :: its2 := by
      cases its1 with
      | nil => simp at h2
      | cons a t => exact ⟨a, t, rfl⟩
    have hred : pileGet p (.coll ((k1 :: k2 :: ids2).map KElem.kstr)) hasD =
        (match (match (Except.map (fun ids => ids.map PKey.sid)
                  (mapMErr get_id ((k1 :: k2 :: ids2).map KElem.kstr))) with
                | .error e => Except.error (ε := Err) (α := RVal) e
                | .ok subkeys =>
                    match getLoop p subkeys with
                    | .error e => Except.error e
                    | .ok [] => Except.error Err.itemNotFound
                    | .ok [it0] => Except.ok (RVal.one it0)
                    | .ok items2 =>
                        match pileInit items2 p.item_type none false with
                        | .ok q => Except.ok (RVal.pile q)
                        | .error e => Except.error e) with
         | .ok v => Except.ok v
         | .error _ =>
             if hasD then Except.ok RVal.dflt
             else Except.error Err.itemNotFound) := rfl
    rw [hred, mapMErr_get_id_kstr]
    dsimp only [Except.map]
    rw [h1]
    dsimp only
    rw [pileInit_concrete hgt.1 hchk hndi]
    exact ⟨_, rfl, h2, rfl, rfl⟩
  · intro key e h
    cases key with
    | idx i =>
        rw [pileGet] at h
        split at h
        · simp at h
        next e2 hx =>
            have h2 : Except.error Err.itemNotFound = Except.error e := h
            cases h2
            refine ⟨rfl, ?_⟩
            rw [pileGet, hx] <;> first | rfl | simp
        all_goals simp
    | slc s =>
        rw [pileGet] at h
        split at h
        · simp at h
        next e2 hx =>
            have h2 : Except.error Err.itemNotFound = Except.error e := h
            cases h2
            refine ⟨rfl, ?_⟩
            rw [pileGet, hx] <;> first | rfl | simp
        all_goals simp
    | sid k =>
        rw [pileGet] at h
        split at h
        · simp at h
        next e2 hx =>
            have h2 : Except.error Err.itemNotFound = Except.error e := h
            cases h2
            refine ⟨rfl, ?_⟩
            rw [pileGet, hx] <;> first | rfl | simp
        all_goals simp
    | pitem it =>
        rw [pileGet] at h
        split at h
        · simp at h
        next e2 hx =>
            have h2 : Except.error Err.itemNotFound = Except.error e := h
            cases h2
            refine ⟨rfl, ?_⟩
            rw [pileGet, hx] <;> first | rfl | simp
        all_goals simp
    | coll l =>
        rw [pileGet] at h
        split at h
        · simp at h
        next e2 hx =>
            have h2 : Except.error Err.itemNotFound = Except.error e := h
            cases h2
            refine ⟨rfl, ?_⟩
            rw [pileGet, hx] <;> first | rfl | simp
        all_goals simp
    | kbad =>
        rw [pileGet] at h
        split at h
        · simp at h
        next e2 hx =>
            have h2 : Except.error Err.itemNotFound = Except.error e := h
            cases h2
            refine ⟨rfl, ?_⟩
            rw [pileGet, hx] <;> first | rfl | simp
        all_goals simp

/-- C7 witness: the amended shape behavior applied to `Pile([e1, e2])`:
the singleton collection `["k1"]` returns the bare element `e1`. -/
theorem claim7_witness :
    good pileTwo ∧ dictLookup pileTwo.pile_ "k1" = some ex1 ∧
      pileGet pileTwo (.coll [.kstr "k1"]) true = .ok (.one ex1) :=
  ⟨by decide, by decide,
    (claim7_get_shapes pileTwo (by decide)).2.2.2.1 "k1" ex1 true (by decide)⟩

end LionCore
